import Mathlib

/-!
Verification development for the sim_icom ICOM simulator.

Shallow embedding of the core subsystems (TLV frame codec, typed values,
tag database, user notification ledger, DATA_OUT_TABLE_INDEX middleware)
translated from the Rust sources, together with theorems settling the
specification claims.

Machine integers are modelled as `Nat` (unsigned) or `Int` (signed); byte
sequences as `List Nat`; `f32`/`f64` values are carried by their IEEE bit
patterns (the code only moves float bytes around, and casts are modelled
arithmetically on the bit pattern).  Fallible Rust functions return
`Except`/`Option`; a Rust panic is modelled as `Option.none` where it can
occur.  Wall-clock instants are `Rat` numbers of seconds.
-/

namespace SimIcom

/-! ## Wire constants (src/afsec/tlv_frame/raw_frame.rs) -/

/-- Maximal data length of a TLV message (`RAW_FRAME_MAX_LEN`). -/
def RAW_FRAME_MAX_LEN : Nat := 250

/-- Start of message. -/
def STX : Nat := 0x02

/-- End of message. -/
def ETX : Nat := 0x03

/-- Message acknowledgement. -/
def ACK : Nat := 0x06

/-- Message non-acknowledgement. -/
def NACK : Nat := 0x15

/-! ## t_data: TFormat (src/t_data/t_format.rs) -/

/-- Recognized data formats (`TFormat`). -/
inductive TFormat where
  | Unknown
  | Bool
  | U8
  | I8
  | U16
  | I16
  | U32
  | I32
  | U64
  | I64
  | F32
  | F64
  | VecU8 (n : Nat)
  deriving DecidableEq, Repr

/-- `impl From<u8> for TFormat`. -/
def TFormat.fromU8 (value : Nat) : TFormat :=
  if value = 0x11 then .Bool
  else if value = 0x01 then .U8
  else if value = 0x41 then .I8
  else if value = 0x02 then .U16
  else if value = 0x42 then .I16
  else if value = 0x04 then .U32
  else if value = 0x44 then .I32
  else if value = 0x08 then .U64
  else if value = 0x48 then .I64
  else if value = 0x64 then .F32
  else if value = 0x68 then .F64
  else if 0x80 ≤ value ∧ value ≤ 0xFF then .VecU8 (value - 0x80)
  else .Unknown

/-- `impl From<TFormat> for u8`. -/
def TFormat.toU8 : TFormat → Nat
  | .Unknown => 0x00
  | .Bool => 0x11
  | .U8 => 0x01
  | .I8 => 0x41
  | .U16 => 0x02
  | .I16 => 0x42
  | .U32 => 0x04
  | .I32 => 0x44
  | .U64 => 0x08
  | .I64 => 0x48
  | .F32 => 0x64
  | .F64 => 0x68
  | .VecU8 n => if n ≤ 127 then 0x80 + n else 0x00

/-- `TFormat::nb_bytes`. -/
def TFormat.nb_bytes : TFormat → Nat
  | .Unknown => 0
  | .U8 | .Bool | .I8 => 1
  | .U16 | .I16 => 2
  | .U32 | .I32 | .F32 => 4
  | .U64 | .I64 | .F64 => 8
  | .VecU8 n => n

/-- `TFormat::nb_words`. -/
def TFormat.nb_words : TFormat → Nat
  | .Unknown => 0
  | .U8 | .Bool | .I8 | .U16 | .I16 => 1
  | .U32 | .I32 | .F32 => 2
  | .U64 | .I64 | .F64 => 4
  | .VecU8 n => if 1 ≤ n ∧ n ≤ 127 then (n + 1) / 2 else 0

/-! ## t_data: TValue (src/t_data/t_value.rs) -/

/-- Container of an atomic value (`TValue`).  Floats carry their bit patterns. -/
inductive TValue where
  | bool (value : Bool)
  | u8 (value : Nat)
  | i8 (value : Int)
  | u16 (value : Nat)
  | i16 (value : Int)
  | u32 (value : Nat)
  | i32 (value : Int)
  | u64 (value : Nat)
  | i64 (value : Int)
  | f32 (bits : Nat)
  | f64 (bits : Nat)
  | vecU8 (len : Nat) (value : List Nat)
  deriving DecidableEq, Repr

/-- `impl From<&TValue> for TFormat`. -/
def TFormat.fromTValue : TValue → TFormat
  | .bool _ => .Bool
  | .u8 _ => .U8
  | .i8 _ => .I8
  | .u16 _ => .U16
  | .i16 _ => .I16
  | .u32 _ => .U32
  | .i32 _ => .I32
  | .u64 _ => .U64
  | .i64 _ => .I64
  | .f32 _ => .F32
  | .f64 _ => .F64
  | .vecU8 len _ => .VecU8 len

/-! ## Big-endian byte helpers -/

/-- Big-endian value of a byte list (composition used by `uN::from_be_bytes`). -/
def be_to_nat (l : List Nat) : Nat := l.foldl (fun a b => a * 256 + b) 0

/-- `w`-byte big-endian encoding of `v` (`uN::to_be_bytes`, low `8*w` bits). -/
def nat_to_be : Nat → Nat → List Nat
  | 0, _ => []
  | w + 1, v => nat_to_be w (v / 256) ++ [v % 256]

/-- Two's-complement representative of a signed value in `w` bits
(`iN as uN` / `iN::to_be_bytes` bit pattern). -/
def int_to_twos (w : Nat) (v : Int) : Nat := (v % ((2 : Int) ^ w)).toNat

/-- Signed reinterpretation of a `w`-bit unsigned value (`iN::from_be_bytes`). -/
def twos_to_int (w : Nat) (n : Nat) : Int :=
  if n < 2 ^ (w - 1) then (n : Int) else (n : Int) - 2 ^ w

/-! ## t_data: big-endian codec (src/t_data/be_data.rs) -/

/-- `be_data::decode`: `TFormat` + bytes to `TValue`.
Note that the `VecU8` arm keeps the whole remaining byte list, exactly as the
Rust code clones the whole input slice. -/
def be_data_decode (t_format : TFormat) (vec_u8 : List Nat) : Except String TValue :=
  if vec_u8.length < t_format.nb_bytes then .error "Missing u8 in data"
  else
    .ok (match t_format with
      | .Unknown => .vecU8 0 []
      | .Bool => .bool (vec_u8.getD 0 0 ≠ 0)
      | .U8 => .u8 (vec_u8.getD 0 0)
      | .I8 => .i8 (twos_to_int 8 (vec_u8.getD 0 0))
      | .U16 => .u16 (be_to_nat (vec_u8.take 2))
      | .I16 => .i16 (twos_to_int 16 (be_to_nat (vec_u8.take 2)))
      | .U32 => .u32 (be_to_nat (vec_u8.take 4))
      | .I32 => .i32 (twos_to_int 32 (be_to_nat (vec_u8.take 4)))
      | .U64 => .u64 (be_to_nat (vec_u8.take 8))
      | .I64 => .i64 (twos_to_int 64 (be_to_nat (vec_u8.take 8)))
      | .F32 => .f32 (be_to_nat (vec_u8.take 4))
      | .F64 => .f64 (be_to_nat (vec_u8.take 8))
      | .VecU8 n => .vecU8 n vec_u8)

/-- `be_data::encode`: `TValue` to bytes. -/
def be_data_encode : TValue → List Nat
  | .bool value => if value then [1] else [0]
  | .u8 value => [value]
  | .i8 value => [int_to_twos 8 value]
  | .u16 value => nat_to_be 2 value
  | .i16 value => nat_to_be 2 (int_to_twos 16 value)
  | .u32 value => nat_to_be 4 value
  | .i32 value => nat_to_be 4 (int_to_twos 32 value)
  | .u64 value => nat_to_be 8 value
  | .i64 value => nat_to_be 8 (int_to_twos 64 value)
  | .f32 bits => nat_to_be 4 bits
  | .f64 bits => nat_to_be 8 bits
  | .vecU8 _ value => value

/-! ## t_data: numeric conversions used by the middlewares -/

/-- ASCII-decimal parse of a byte list, mirroring
`String::from_utf8_lossy(bytes).parse::<u64>().unwrap_or(0)`:
an optional leading plus sign, then at least one ASCII digit and nothing
else; any other byte (including non-ASCII bytes, which the lossy conversion
turns into replacement characters) or an overflow yields `0`. -/
def rust_parse_u64 (bytes : List Nat) : Nat :=
  let core := match bytes with
    | b :: rest => if b = 0x2B then rest else bytes
    | [] => []
  if core ≠ [] ∧ core.all (fun b => 0x30 ≤ b ∧ b ≤ 0x39) then
    let v := core.foldl (fun a b => a * 10 + (b - 0x30)) 0
    if v < 2 ^ 64 then v else 0
  else 0

/-- Rust saturating float-to-`u64` cast (`f as u64`) computed from the IEEE
`f32` bit pattern: NaN maps to 0, negatives truncate or saturate to 0,
too-large values saturate to `u64::MAX`. -/
def cast_f32_to_u64 (bits : Nat) : Nat :=
  let s := bits / 2 ^ 31 % 2
  let e := bits / 2 ^ 23 % 256
  let m := bits % 2 ^ 23
  if e = 255 then (if m ≠ 0 then 0 else if s = 1 then 0 else 2 ^ 64 - 1)
  else if s = 1 then 0
  else if e = 0 then 0
  else
    let t := if 150 ≤ e then (2 ^ 23 + m) * 2 ^ (e - 150) else (2 ^ 23 + m) / 2 ^ (150 - e)
    if t < 2 ^ 64 then t else 2 ^ 64 - 1

/-- Rust saturating float-to-`u64` cast (`f as u64`) from the IEEE `f64`
bit pattern. -/
def cast_f64_to_u64 (bits : Nat) : Nat :=
  let s := bits / 2 ^ 63 % 2
  let e := bits / 2 ^ 52 % 2048
  let m := bits % 2 ^ 52
  if e = 2047 then (if m ≠ 0 then 0 else if s = 1 then 0 else 2 ^ 64 - 1)
  else if s = 1 then 0
  else if e = 0 then 0
  else
    let t := if 1075 ≤ e then (2 ^ 52 + m) * 2 ^ (e - 1075) else (2 ^ 52 + m) / 2 ^ (1075 - e)
    if t < 2 ^ 64 then t else 2 ^ 64 - 1

/-- `impl From<&TValue> for u64` (out-of-range conversions yield 0). -/
def TValue.toU64 : TValue → Nat
  | .bool value => if value then 1 else 0
  | .u8 value => value
  | .i8 value => if 0 ≤ value then value.toNat else 0
  | .u16 value => value
  | .i16 value => if 0 ≤ value then value.toNat else 0
  | .u32 value => value
  | .i32 value => if 0 ≤ value then value.toNat else 0
  | .u64 value => value
  | .i64 value => if 0 ≤ value then value.toNat else 0
  | .f32 bits => cast_f32_to_u64 bits
  | .f64 bits => cast_f64_to_u64 bits
  | .vecU8 _ value => rust_parse_u64 value

/-- `impl From<&TValue> for u8`:
`u8::try_from(u64::from(value)).unwrap_or(0)`. -/
def TValue.toU8 (value : TValue) : Nat :=
  if value.toU64 ≤ 255 then value.toU64 else 0

/-! ## tlv_frame: DataItem (src/afsec/tlv_frame/data_item.rs) -/

/-- Frame error cases (`FrameError`). -/
inductive FrameError where
  | IsEmpty
  | IsJunk
  | IsBuilding
  | IsNotOk
  | BadDataLength
  | BadDataItem
  | MaxLengthOverflow
  deriving DecidableEq, Repr

/-- Decidable equality of `Except` results, used to evaluate codec outcomes
on concrete inputs. -/
instance {ε α : Type} [DecidableEq ε] [DecidableEq α] : DecidableEq (Except ε α)
  | .error a, .error b =>
      if h : a = b then .isTrue (h ▸ rfl) else .isFalse (fun hh => h (Except.error.inj hh))
  | .error _, .ok _ => .isFalse (by simp)
  | .ok _, .error _ => .isFalse (by simp)
  | .ok a, .ok b =>
      if h : a = b then .isTrue (h ▸ rfl) else .isFalse (fun hh => h (Except.ok.inj hh))

/-- One TLV data triple (`DataItem`). -/
structure DataItem where
  tag : Nat
  t_format : TFormat
  t_value : TValue
  deriving DecidableEq, Repr

/-- Modelled from the spec: `DataItem::new(tag, t_value)` is called throughout
the middlewares but its definition is absent from the sources under `src/`;
per spec §4.2 the format field always equals `TypedFormat::from(&t_value)`
on construction. -/
def DataItem.new (tag : Nat) (t_value : TValue) : DataItem :=
  ⟨tag, TFormat.fromTValue t_value, t_value⟩

/-- `DataItem::encode`. -/
def DataItem.encode (di : DataItem) : List Nat :=
  di.tag :: di.t_format.toU8 :: be_data_encode di.t_value

/-- `DataItem::decode`: first `DataItem` of a byte list with the number of
bytes it uses. -/
def DataItem.decode (values : List Nat) : Except FrameError (DataItem × Nat) :=
  if values.length < 2 then .error .BadDataLength
  else
    let tag := values.getD 0 0
    let t_format := TFormat.fromU8 (values.getD 1 0)
    let data_item_len := 2 + t_format.nb_bytes
    if values.length < data_item_len then .error .BadDataLength
    else
      match be_data_decode t_format (values.drop 2) with
      | .ok t_value => .ok (⟨tag, t_format, t_value⟩, data_item_len)
      | .error _ => .error .BadDataItem

/-- The loop of `DataItem::decode_all`, with an explicit fuel making the
recursion structural.  Every successful `decode` consumes at least two
bytes, so with `values.length` as initial fuel the zero-fuel arm (which
reports `BadDataLength`) is unreachable. -/
def decode_all_fuel : Nat → List Nat → Except FrameError (List DataItem)
  | _, [] => .ok []
  | 0, _ :: _ => .error .BadDataLength
  | fuel + 1, values =>
      match DataItem.decode values with
      | .error e => .error e
      | .ok dil =>
          match decode_all_fuel fuel (values.drop dil.2) with
          | .error e => .error e
          | .ok rest => .ok (dil.1 :: rest)

/-- `DataItem::decode_all`: sequential decoding of a whole byte list. -/
def DataItem.decode_all (values : List Nat) : Except FrameError (List DataItem) :=
  decode_all_fuel values.length values

/-! ## tlv_frame: RawFrame (src/afsec/tlv_frame/raw_frame.rs) -/

/-- Builder states of the raw TLV frame (`RawFrame`). -/
inductive RawFrame where
  | Empty
  | Ack
  | AckAndJunk (junk : List Nat)
  | Nack
  | NackAndJunk (junk : List Nat)
  | Stx
  | Tag (tag : Nat)
  | TagLen (tag len : Nat)
  | TagLenValue (tag len : Nat) (values : List Nat)
  | Xor (tag len : Nat) (values : List Nat) (xor : Nat)
  | Ok (tag len : Nat) (values : List Nat) (xor : Nat)
  | OkAndJunk (tag len : Nat) (values : List Nat) (xor : Nat) (junk : List Nat)
  | Junk (junk : List Nat)
  deriving DecidableEq, Repr

/-- Observable state of the builder (`FrameState`). -/
inductive FrameState where
  | Empty
  | Building
  | Ok
  | Junk
  deriving DecidableEq, Repr

/-- `RawFrame::calcul_xor`: XOR of the tag, the length and the data bytes. -/
def calcul_xor (tag len : Nat) (values : List Nat) : Nat :=
  values.foldl (fun a b => a ^^^ b) (tag ^^^ len)

/-- `RawFrame::new_ack`. -/
def RawFrame.new_ack : RawFrame := .Ack

/-- `RawFrame::new_nack`. -/
def RawFrame.new_nack : RawFrame := .Nack

/-- `RawFrame::new_message`. -/
def RawFrame.new_message (tag : Nat) : RawFrame := .Ok tag 0 [] tag

/-- `RawFrame::push`: feed one byte into the builder. -/
def RawFrame.push (f : RawFrame) (octet : Nat) : RawFrame :=
  match f with
  | .Empty =>
      if octet = ACK then .Ack
      else if octet = NACK then .Nack
      else if octet = STX then .Stx
      else .Junk [octet]
  | .Ack => .AckAndJunk [octet]
  | .AckAndJunk junk => .AckAndJunk (junk ++ [octet])
  | .Nack => .NackAndJunk [octet]
  | .NackAndJunk junk => .NackAndJunk (junk ++ [octet])
  | .Stx => .Tag octet
  | .Tag tag => .TagLen tag octet
  | .TagLen tag len =>
      if len = 0 then
        if octet = tag then .Xor tag 0 [] octet
        else .Junk [STX, tag, 0, octet]
      else .TagLenValue tag len [octet]
  | .TagLenValue tag len values =>
      if len = values.length then
        if octet = calcul_xor tag len values then .Xor tag len values (calcul_xor tag len values)
        else .Junk ([STX, tag, len] ++ values ++ [octet])
      else .TagLenValue tag len (values ++ [octet])
  | .Xor tag len values xor =>
      if octet = ETX then .Ok tag len values xor
      else .Junk ([STX, tag, len] ++ values ++ [xor, octet])
  | .Ok tag len values xor => .OkAndJunk tag len values xor [octet]
  | .OkAndJunk tag len values xor junk => .OkAndJunk tag len values xor (junk ++ [octet])
  | .Junk junk => .Junk (junk ++ [octet])

/-- `RawFrame::extend`: feed a byte list. -/
def RawFrame.extend (f : RawFrame) (octets : List Nat) : RawFrame :=
  octets.foldl RawFrame.push f

/-- `RawFrame::new`: build from a byte list starting from the empty frame. -/
def RawFrame.ofBytes (octets : List Nat) : RawFrame :=
  RawFrame.extend .Empty octets

/-- `RawFrame::try_extend_data_item`.  The returned pair carries the
`Result` and the (possibly updated) frame, mirroring `&mut self`. -/
def RawFrame.try_extend_data_item (f : RawFrame) (data_item : DataItem) :
    Except FrameError Unit × RawFrame :=
  match f with
  | .Ok tag len values _ =>
      let vec_u8 := data_item.encode
      let new_len := vec_u8.length + len
      if new_len > RAW_FRAME_MAX_LEN then (.error .MaxLengthOverflow, f)
      else
        let new_values := values ++ vec_u8
        (.ok (), .Ok tag new_len new_values (calcul_xor tag new_len new_values))
  | _ => (.error .IsNotOk, f)

/-- `RawFrame::get_state`. -/
def RawFrame.get_state : RawFrame → FrameState
  | .Empty => .Empty
  | .Ack | .Nack | .Ok _ _ _ _ => .Ok
  | .AckAndJunk _ | .NackAndJunk _ | .OkAndJunk _ _ _ _ _ | .Junk _ => .Junk
  | .Stx | .Tag _ | .TagLen _ _ | .TagLenValue _ _ _ | .Xor _ _ _ _ => .Building

/-- `RawFrame::encode`: canonical byte sequence of the current variant. -/
def RawFrame.encode : RawFrame → List Nat
  | .Empty => []
  | .Ack => [ACK]
  | .AckAndJunk junk => ACK :: junk
  | .Nack => [NACK]
  | .NackAndJunk junk => NACK :: junk
  | .Stx => [STX]
  | .Tag tag => [STX, tag]
  | .TagLen tag len => [STX, tag, len]
  | .TagLenValue tag len values => [STX, tag, len] ++ values
  | .Xor tag len values xor => [STX, tag, len] ++ values ++ [xor]
  | .Ok tag len values xor => [STX, tag, len] ++ values ++ [xor, ETX]
  | .OkAndJunk tag len values xor junk => [STX, tag, len] ++ values ++ [xor, ETX] ++ junk
  | .Junk junk => junk

/-- `RawFrame::remove_junk`. -/
def RawFrame.remove_junk : RawFrame → RawFrame
  | .AckAndJunk _ => .Ack
  | .NackAndJunk _ => .Nack
  | .OkAndJunk tag len values xor _ => .Ok tag len values xor
  | .Junk _ => .Empty
  | f => f

/-! ## tlv_frame: DataFrame (src/afsec/tlv_frame/data_frame.rs) -/

/-- Logical view of a parsed frame (`DataFrame`). -/
inductive DataFrame where
  | SimpleACK
  | SimpleNACK
  | Message (tag : Nat) (data_items : List DataItem)
  deriving DecidableEq, Repr

/-- `impl TryFrom<RawFrame> for DataFrame`. -/
def DataFrame.tryFrom : RawFrame → Except FrameError DataFrame
  | .Empty => .error .IsEmpty
  | .Ack => .ok .SimpleACK
  | .AckAndJunk _ | .NackAndJunk _ | .OkAndJunk _ _ _ _ _ | .Junk _ => .error .IsJunk
  | .Nack => .ok .SimpleNACK
  | .Stx | .Tag _ | .TagLen _ _ | .TagLenValue _ _ _ | .Xor _ _ _ _ => .error .IsBuilding
  | .Ok tag _ data_items _ =>
      match DataItem.decode_all data_items with
      | .ok data_items => .ok (.Message tag data_items)
      | .error _ => .error .BadDataItem

/-- `DataFrame::get_tag`. -/
def DataFrame.get_tag : DataFrame → Nat
  | .SimpleACK => ACK
  | .SimpleNACK => NACK
  | .Message tag _ => tag

/-- `DataFrame::get_data_items`. -/
def DataFrame.get_data_items : DataFrame → List DataItem
  | .Message _ data_items => data_items
  | _ => []

/-! ## database: IdTag (src/database/id_tag.rs) -/

/-- Unique reference of a database tag (`IdTag`). -/
structure IdTag where
  zone : Nat
  num_tag : Nat
  indice_0 : Nat
  indice_1 : Nat
  indice_2 : Nat
  deriving DecidableEq, Inhabited, Repr

/-! ## database: user ledger (src/database/id_users.rs) -/

/-- `ID_ANONYMOUS_USER`. -/
def ID_ANONYMOUS_USER : Nat := 0

/-- `ANONYMOUS_USER_NAME`. -/
def ANONYMOUS_USER_NAME : String := "Anonymous user"

/-- `DURATION_CHANGE_FILTER_SECS` (seconds). -/
def DURATION_CHANGE_FILTER_SECS : Rat := 1

/-- One identified database user (`User`). -/
structure User where
  name : String
  use_notification : Bool
  next_notification_index : Nat
  deriving DecidableEq, Inhabited, Repr

/-- One database change record (`NotificationChange`). -/
structure NotificationChange where
  id_user : Nat
  id_tag : IdTag
  deriving DecidableEq, Inhabited, Repr

/-- State of the user ledger (`IdUsers`).  `date_last_change` is the wall
clock instant of the last appended change, in seconds. -/
structure IdUsers where
  vec_users : List User
  vec_changes : List NotificationChange
  date_last_change : Rat
  deriving DecidableEq, Repr

/-- `IdUsers::default` at clock instant `t0`: the anonymous user occupies
slot 0 and does not use notifications. -/
def IdUsers.init (t0 : Rat) : IdUsers :=
  ⟨[⟨ANONYMOUS_USER_NAME, false, 0⟩], [], t0⟩

/-- `IdUsers::get_id_user`: register a user, returning its fresh id. -/
def IdUsers.get_id_user (s : IdUsers) (name : String) (use_notification : Bool) :
    Nat × IdUsers :=
  let new_id_user := s.vec_users.length
  let next_notification_index := s.vec_changes.length
  (new_id_user,
    { s with vec_users := s.vec_users ++ [⟨name, use_notification, next_notification_index⟩] })

/-- `IdUsers::get_id_user_name`.  The outer `Option` models a Rust panic
(`none` = panic): the bound check uses `id_user <= vec_users.len()`, so the
subsequent `vec_users[id_user]` indexing is out of bounds when
`id_user = vec_users.len()`. -/
def IdUsers.get_id_user_name (s : IdUsers) (id_user : Nat) : Option (Option String) :=
  if id_user ≤ s.vec_users.length then
    match s.vec_users.get? id_user with
    | some u => some (some u.name)
    | none => none
  else some none

/-- `IdUsers::do_purge_changes`: drop the `nb` first changes and pull every
user cursor back by `nb` (saturating at 0, as in the source). -/
def IdUsers.do_purge_changes (s : IdUsers) (nb : Nat) : IdUsers :=
  { s with
    vec_changes := s.vec_changes.drop nb
    vec_users := s.vec_users.map
      (fun u => { u with next_notification_index := u.next_notification_index - nb }) }

/-- The minimum-search loop of `IdUsers::purge_changes`: smallest
`next_notification_index` among notification-enabled users, starting from
`top`. -/
def min_notif_index (users : List User) (top : Nat) : Nat :=
  users.foldl
    (fun m u =>
      if u.use_notification && decide (u.next_notification_index < m) then
        u.next_notification_index
      else m)
    top

/-- `IdUsers::purge_changes`. -/
def IdUsers.purge_changes (s : IdUsers) : IdUsers :=
  if s.vec_changes = [] then s
  else
    let min_changes_index := min_notif_index s.vec_users s.vec_changes.length
    if 0 < min_changes_index then s.do_purge_changes min_changes_index else s

/-- `IdUsers::is_some_users_use_notification`. -/
def IdUsers.is_some_users_use_notification (s : IdUsers) : Bool :=
  s.vec_users.any (fun u => u.use_notification)

/-- `IdUsers::is_same_as_last_change` at clock instant `now`.  The
`duration_since` error branch (clock moved backwards) yields `false`, hence
the `date_last_change ≤ now` conjunct. -/
def IdUsers.is_same_as_last_change (s : IdUsers) (c : NotificationChange) (now : Rat) : Bool :=
  match s.vec_changes.getLast? with
  | none => false
  | some last =>
      decide (last.id_user = c.id_user ∧ last.id_tag = c.id_tag ∧
        s.date_last_change ≤ now ∧ now - s.date_last_change < DURATION_CHANGE_FILTER_SECS)

/-- `IdUsers::add_change` at clock instant `now`. -/
def IdUsers.add_change (s : IdUsers) (c : NotificationChange) (now : Rat) : IdUsers :=
  if !s.is_same_as_last_change c now && s.is_some_users_use_notification then
    ({ s with vec_changes := s.vec_changes ++ [c], date_last_change := now }).purge_changes
  else s

/-- Replace user `id_user`'s cursor (helper for the two cursor updates in
`IdUsers::get_change`). -/
def IdUsers.set_next (s : IdUsers) (id_user next : Nat) : IdUsers :=
  { s with
    vec_users := s.vec_users.set id_user
      { s.vec_users.getD id_user default with next_notification_index := next } }

/-- Helper for the scanning loop of `IdUsers::get_change`, walking the
suffix of the change log that starts at offset `off`. -/
def find_offset_aux (pred : NotificationChange → Bool) :
    List NotificationChange → Nat → Option Nat
  | [], _ => none
  | c :: rest, off => if pred c then some off else find_offset_aux pred rest (off + 1)

/-- The scanning loop of `IdUsers::get_change`: first offset at or after
`off` whose change satisfies `pred`. -/
def find_offset (pred : NotificationChange → Bool) (changes : List NotificationChange)
    (off : Nat) : Option Nat :=
  find_offset_aux pred (changes.drop off) off

/-- The author filter applied by `IdUsers::get_change`. -/
def change_filter (id_user : Nat) (include_my_changes include_anonymous_changes : Bool)
    (n : NotificationChange) : Bool :=
  (include_anonymous_changes || n.id_user != ID_ANONYMOUS_USER) &&
    (include_my_changes || n.id_user != id_user)

/-- `IdUsers::get_change`. -/
def IdUsers.get_change (s : IdUsers) (id_user : Nat)
    (include_my_changes include_anonymous_changes : Bool) :
    Option NotificationChange × IdUsers :=
  if s.vec_users.length ≤ id_user then (none, s)
  else if !(s.vec_users.getD id_user default).use_notification then (none, s)
  else
    let offset := (s.vec_users.getD id_user default).next_notification_index
    match find_offset (change_filter id_user include_my_changes include_anonymous_changes)
        s.vec_changes offset with
    | some j => (some (s.vec_changes.getD j default), s.set_next id_user (j + 1))
    | none =>
        if offset < s.vec_changes.length then (none, s.set_next id_user s.vec_changes.length)
        else (none, s)

/-! ## database: Tag and Database (src/database/tag.rs, src/database/mod.rs,
src/database/database_rw/mod.rs) -/

/-- Atomic database entry (`Tag`). -/
structure Tag where
  word_address : Nat
  id_tag : IdTag
  is_internal : Bool
  t_format : TFormat
  unity : String
  label : String
  is_write : Bool
  default_value : String
  deriving DecidableEq, Repr

/-- `Tag::contains_word_address_area`: the tag word range overlaps the area
`[word_address, word_address + nb_words)`.  The two `- 1` are `usize`
subtractions in the source; they agree with the `Nat` truncating subtraction
whenever `nb_words ≥ 1` and the tag format occupies at least one word. -/
def Tag.contains_word_address_area (tag : Tag) (word_address nb_words : Nat) : Bool :=
  let word_address_end := word_address + nb_words - 1
  let tag_address_end := tag.word_address + tag.t_format.nb_words - 1
  decide (tag.word_address ≤ word_address_end ∧ word_address ≤ tag_address_end)

/-- Association-list lookup modelling a `HashMap` get. -/
def alookup {α β : Type} [DecidableEq α] : List (α × β) → α → Option β
  | [], _ => none
  | (k, v) :: rest, a => if k = a then some v else alookup rest a

/-- Association-list insert modelling a `HashMap` insert. -/
def ainsert {α β : Type} [DecidableEq α] : List (α × β) → α → β → List (α × β)
  | [], a, b => [(a, b)]
  | (k, v) :: rest, a, b => if k = a then (a, b) :: rest else (k, v) :: ainsert rest a b

/-- The ICOM database (`Database`): byte store, the two tag maps, and the
user ledger. -/
structure Database where
  vec_u8 : List Nat
  hash_word_address : List (Nat × IdTag)
  hash_tag : List (IdTag × Tag)
  id_users : IdUsers
  deriving DecidableEq, Repr

/-- `Database::default` at clock instant `t0`: a zeroed 2 * 0x8000-byte
store, no tags, the default ledger. -/
def Database.init (t0 : Rat) : Database :=
  ⟨List.replicate (2 * 0x8000) 0, [], [], IdUsers.init t0⟩

/-- `Database::get_tag_from_id_tag`. -/
def Database.get_tag_from_id_tag (db : Database) (id_tag : IdTag) : Option Tag :=
  alookup db.hash_tag id_tag

/-- `Database::get_tag_from_word_address`. -/
def Database.get_tag_from_word_address (db : Database) (word_address : Nat) : Option Tag :=
  match alookup db.hash_word_address word_address with
  | some id_tag => alookup db.hash_tag id_tag
  | none => none

/-- The backward-search loop of `Database::get_tags_from_word_address_area`:
starting just below `prev`, find the nearest registered tag; keep it only if
it overlaps the area, and give up (empty overall result) otherwise. -/
def Database.back_find (db : Database) (word_address nb_words : Nat) : Nat → Option Tag
  | 0 => none
  | p + 1 =>
      match db.get_tag_from_word_address p with
      | some tag =>
          if tag.contains_word_address_area word_address nb_words then some tag else none
      | none => db.back_find word_address nb_words p

/-- The forward loop of `Database::get_tags_from_word_address_area`:
collect tags at increasing addresses while they overlap the area, stopping
past `word_address + nb_words` or at the first non-overlapping tag. -/
def Database.forward_scan (db : Database) (word_address nb_words fwd : Nat) : List Tag :=
  if word_address + nb_words < fwd then []
  else
    match db.get_tag_from_word_address (fwd + 1) with
    | some tag =>
        if tag.contains_word_address_area word_address nb_words then
          tag :: db.forward_scan word_address nb_words (fwd + 1)
        else []
    | none => db.forward_scan word_address nb_words (fwd + 1)
termination_by word_address + nb_words + 1 - fwd

/-- `Database::get_tags_from_word_address_area`. -/
def Database.get_tags_from_word_address_area (db : Database)
    (word_address nb_words : Nat) : List Tag :=
  match db.get_tag_from_word_address word_address with
  | some tag => tag :: db.forward_scan word_address nb_words word_address
  | none =>
      match db.back_find word_address nb_words word_address with
      | some tag => tag :: db.forward_scan word_address nb_words word_address
      | none => []

/-- `Database::user_write_tag` at clock instant `now`. -/
def Database.user_write_tag (db : Database) (id_user : Nat) (tag : Tag) (now : Rat) :
    Database :=
  { db with id_users := db.id_users.add_change ⟨id_user, tag.id_tag⟩ now }

/-- The byte-copy loop of `Database::set_vec_u8_to_word_address`. -/
def write_bytes (v : List Nat) (addr : Nat) : List Nat → List Nat
  | [] => v
  | b :: bs => write_bytes (v.set addr b) (addr + 1) bs

/-- `Database::set_vec_u8_to_word_address` at clock instant `now`.  Besides
the updated database, the returned list records the tags passed to
`user_write_tag`, in call order. -/
def Database.set_vec_u8_to_word_address (db : Database) (id_user word_address : Nat)
    (vec_u8 : List Nat) (now : Rat) : Database × List Tag :=
  let db1 := { db with vec_u8 := write_bytes db.vec_u8 (2 * word_address) vec_u8 }
  let nb_words := (vec_u8.length + 1) / 2
  let tags := db1.get_tags_from_word_address_area word_address nb_words
  (tags.foldl (fun d tag => d.user_write_tag id_user tag now) db1, tags)

/-- `Database::get_id_user`. -/
def Database.get_id_user (db : Database) (name : String) (use_notification : Bool) :
    Nat × Database :=
  let r := db.id_users.get_id_user name use_notification
  (r.1, { db with id_users := r.2 })

/-- `Database::get_id_user_name` (`none` models a Rust panic propagated from
`IdUsers::get_id_user_name`). -/
def Database.get_id_user_name (db : Database) (id_user : Nat) : Option String :=
  match db.id_users.get_id_user_name id_user with
  | none => none
  | some (some name) => some name
  | some none => some ANONYMOUS_USER_NAME

/-- `Database::get_change`. -/
def Database.get_change (db : Database) (id_user : Nat)
    (include_my_changes include_anonymous_changes : Bool) :
    Option NotificationChange × Database :=
  let r := db.id_users.get_change id_user include_my_changes include_anonymous_changes
  (r.1, { db with id_users := r.2 })

/-! ## middleware: Records and MDataOutTableIndex
(src/afsec/middleware/context.rs, src/afsec/middleware/m_data_out_table_index.rs) -/

/-- Min/max table indices seen per zone (`Records`). -/
structure Records where
  index_min : List (Nat × Nat)
  index_max : List (Nat × Nat)
  deriving DecidableEq, Repr

/-- `Records::get_index_min`: 0 when the zone has no recorded index. -/
def Records.get_index_min (r : Records) (zone : Nat) : Nat :=
  (alookup r.index_min zone).getD 0

/-- `Records::get_index_max`: 0 when the zone has no recorded index. -/
def Records.get_index_max (r : Records) (zone : Nat) : Nat :=
  (alookup r.index_max zone).getD 0

/-- `Records::set_index`. -/
def Records.set_index (r : Records) (zone index : Nat) : Records :=
  let prev_min := r.get_index_min zone
  let r1 :=
    if prev_min = 0 ∨ index < prev_min then
      { r with index_min := ainsert r.index_min zone index }
    else r
  let prev_max := r1.get_index_max zone
  if prev_max = 0 ∨ prev_max < index then
    { r1 with index_max := ainsert r1.index_max zone index }
  else r1

/-- `id_message::AF_DATA_OUT_TABLE_INDEX`. -/
def AF_DATA_OUT_TABLE_INDEX : Nat := 0x05

/-- `id_message::IC_DATA_OUT_TABLE_INDEX`. -/
def IC_DATA_OUT_TABLE_INDEX : Nat := 0x85

/-- `id_message::D_DATA_ZONE`. -/
def D_DATA_ZONE : Nat := 0x31

/-- `id_message::D_DATA_FIRST_TABLE_INDEX`. -/
def D_DATA_FIRST_TABLE_INDEX : Nat := 0x50

/-- `raw_frame.try_extend_data_item(..).unwrap()` as used by
`MDataOutTableIndex`: the three extends in that middleware build at most 23
payload bytes, so the unwrap can never hit the error case (on which this
model would keep the frame unchanged). -/
def RawFrame.extend_data_item_unwrap (f : RawFrame) (data_item : DataItem) : RawFrame :=
  (f.try_extend_data_item data_item).2

/-- `MDataOutTableIndex::get_conversation` (the context is only read through
`records`; the debug trace is irrelevant to the result). -/
def m_data_out_table_index_get_conversation (records : Records)
    (request_data_frame : DataFrame) : Option RawFrame :=
  if request_data_frame.get_tag ≠ AF_DATA_OUT_TABLE_INDEX then none
  else
    match request_data_frame.get_data_items.find? (fun di => di.tag == D_DATA_ZONE) with
    | none => some RawFrame.new_nack
    | some data_item =>
        let cur_zone := data_item.t_value.toU8
        let raw_frame := RawFrame.new_message IC_DATA_OUT_TABLE_INDEX
        let raw_frame := raw_frame.extend_data_item_unwrap
          (DataItem.new D_DATA_ZONE (.u8 cur_zone))
        let raw_frame := raw_frame.extend_data_item_unwrap
          (DataItem.new D_DATA_FIRST_TABLE_INDEX (.u64 (records.get_index_min cur_zone)))
        let raw_frame := raw_frame.extend_data_item_unwrap
          (DataItem.new D_DATA_FIRST_TABLE_INDEX (.u64 (records.get_index_max cur_zone)))
        some raw_frame

/-! ## Claim-side definitions -/

/-- The wire grammar of spec §4.1, as worded in the claims: a single ACK
byte, a single NACK byte, or `STX, tag, len, payload[len], xor, ETX` with
`xor = tag XOR len XOR payload bytes`. -/
def ValidFrame (s : List Nat) : Prop :=
  s = [ACK] ∨ s = [NACK] ∨
    ∃ tag payload, s =
      STX :: tag :: payload.length ::
        (payload ++ [calcul_xor tag payload.length payload, ETX])

/-- Range constraints of the Rust value types carried by a model `TValue`
(`u8` holds a byte, `i16` a signed 16-bit value, float bit patterns fit
their width, and so on). -/
def TValue.wf : TValue → Bool
  | .bool _ => true
  | .u8 v => decide (v < 2 ^ 8)
  | .i8 v => decide (-(2 ^ 7) ≤ v ∧ v < 2 ^ 7)
  | .u16 v => decide (v < 2 ^ 16)
  | .i16 v => decide (-(2 ^ 15) ≤ v ∧ v < 2 ^ 15)
  | .u32 v => decide (v < 2 ^ 32)
  | .i32 v => decide (-(2 ^ 31) ≤ v ∧ v < 2 ^ 31)
  | .u64 v => decide (v < 2 ^ 64)
  | .i64 v => decide (-(2 ^ 63) ≤ v ∧ v < 2 ^ 63)
  | .f32 bits => decide (bits < 2 ^ 32)
  | .f64 bits => decide (bits < 2 ^ 64)
  | .vecU8 _ _ => true

/-- Payload condition under which a message frame decodes back to its
original data items: every value is in range, and a `VecU8` item declares
exactly its byte count, at most 127, and stands last in the frame (the
decoder hands a `VecU8` item every remaining payload byte). -/
def ok_payload_items : List (Nat × TValue) → Bool
  | [] => true
  | (_, v) :: rest =>
      v.wf &&
        (match v with
          | .vecU8 n bytes => decide (bytes.length = n) && decide (n ≤ 127) && rest.isEmpty
          | _ => true) &&
        ok_payload_items rest

/-- Repeated `try_extend_data_item` over `(tag, value)` pairs, each item
built with its format derived from its value; `none` when an extend fails. -/
def try_extend_all (f : RawFrame) : List (Nat × TValue) → Option RawFrame
  | [] => some f
  | (t, v) :: rest =>
      match f.try_extend_data_item (DataItem.new t v) with
      | (.ok _, f2) => try_extend_all f2 rest
      | (.error _, _) => none

/-- A message frame built with `new_message` and `try_extend_data_item`. -/
def build_message (tag : Nat) (items : List (Nat × TValue)) : Option RawFrame :=
  try_extend_all (RawFrame.new_message tag) items

/-- Concatenated encoding of a list of `(tag, value)` data items. -/
def encode_items : List (Nat × TValue) → List Nat
  | [] => []
  | (t, v) :: rest => (DataItem.new t v).encode ++ encode_items rest

/-- Structural invariant of builder states reachable by `push` from the
empty frame: a partial payload never exceeds the announced length, and a
validated or completed frame stores the payload length and the recomputed
XOR. -/
def FrameInv : RawFrame → Prop
  | .TagLenValue _ len values => 1 ≤ values.length ∧ values.length ≤ len
  | .Xor tag len values xor => values.length = len ∧ xor = calcul_xor tag len values
  | .Ok tag len values xor => values.length = len ∧ xor = calcul_xor tag len values
  | .OkAndJunk tag len values xor _ => values.length = len ∧ xor = calcul_xor tag len values
  | _ => True

/-- Ledger invariant of spec §3: every user cursor stays within the change
log. -/
def IdUsers.inv (s : IdUsers) : Prop :=
  ∀ u ∈ s.vec_users, u.next_notification_index ≤ s.vec_changes.length

/-- Range constraint for a model `Records` value: recorded table indices fit
in a Rust `u64`. -/
def Records.wf (r : Records) : Prop :=
  (∀ p ∈ r.index_min, p.2 < 2 ^ 64) ∧ (∀ p ∈ r.index_max, p.2 < 2 ^ 64)

/-- Claim-side (C4): the word range `[a, a + w)` of a tag meets the area
`[wa, wa + nb)` in at least one word. -/
def tag_intersects_area (tag : Tag) (wa nb : Nat) : Bool :=
  decide (tag.word_address < wa + nb ∧ wa < tag.word_address + tag.t_format.nb_words)

/-- Claim-side (C4): nearest registered tag at an address strictly below the
bound, found by scanning backward. -/
def nearest_tag_back (db : Database) : Nat → Option Tag
  | 0 => none
  | p + 1 =>
      match db.get_tag_from_word_address p with
      | some t => some t
      | none => nearest_tag_back db p

/-- Claim-side (C4): the tag at `wa`, or the nearest registered tag before
`wa`. -/
def nearest_tag_at_or_before (db : Database) (wa : Nat) : Option Tag :=
  match db.get_tag_from_word_address wa with
  | some t => some t
  | none => nearest_tag_back db wa

/-- Claim-side (C4): every tag after `wa` whose word range intersects the
area `[wa, wa + nb)`.  Such a tag necessarily sits at one of the addresses
`wa + 1, …, wa + nb` (a tag at or past `wa + nb` starts at or past the area
end), listed here in increasing address order. -/
def spec_follow_tags (db : Database) (wa nb : Nat) : List Tag :=
  (List.range' (wa + 1) nb).filterMap fun a =>
    match db.get_tag_from_word_address a with
    | some t => if tag_intersects_area t wa nb then some t else none
    | none => none

/-- Claim-side (C4) description of `get_tags_from_word_address_area`: the
tag at or scanned backward before `wa` when its word range covers (meets)
the area, then every following intersecting tag; empty when no such
predecessor tag exists. -/
def spec_area_tags (db : Database) (wa nb : Nat) : List Tag :=
  match nearest_tag_at_or_before db wa with
  | some t =>
      if tag_intersects_area t wa nb then t :: spec_follow_tags db wa nb else []
  | none => []

/-! ## Basic RawFrame lemmas -/

theorem push_encode (f : RawFrame) (b : Nat) : (f.push b).encode = f.encode ++ [b] := by
  cases f <;> simp only [RawFrame.push] <;> (try split_ifs) <;> simp_all [RawFrame.encode]

theorem extend_cons (f : RawFrame) (b : Nat) (s : List Nat) :
    f.extend (b :: s) = (f.push b).extend s := rfl

theorem extend_append (f : RawFrame) (s t : List Nat) :
    f.extend (s ++ t) = (f.extend s).extend t := List.foldl_append ..

theorem encode_extend (s : List Nat) : ∀ f : RawFrame, (f.extend s).encode = f.encode ++ s := by
  induction s with
  | nil => intro f; simp [RawFrame.extend]
  | cons b s ih =>
      intro f
      rw [extend_cons, ih, push_encode]
      simp

/-- C10: every byte fed into a fresh builder is retained verbatim: after any
sequence of `push` calls starting from the empty frame, `encode()` returns
exactly the bytes pushed so far, in every builder state. -/
theorem rawframe_encode_faithful (s : List Nat) : (RawFrame.ofBytes s).encode = s := by
  rw [RawFrame.ofBytes, encode_extend]
  rfl

/-- C8: from a `Building` state a pushed byte leads to `Building`, `Ok` or
`Junk` (never `Empty`); from an `Ok` state any pushed byte leads to a `Junk`
state, the `Ok` variant specifically becoming `OkAndJunk`; and `remove_junk`
is idempotent. -/
theorem rawframe_state_monotone (f : RawFrame) (b : Nat) :
    (f.get_state = .Building →
      (f.push b).get_state = .Building ∨ (f.push b).get_state = .Ok ∨
        (f.push b).get_state = .Junk) ∧
    (f.get_state = .Ok →
      (f.push b).get_state = .Junk ∧
        ∀ tag len values xor, f = .Ok tag len values xor →
          f.push b = .OkAndJunk tag len values xor [b]) ∧
    f.remove_junk.remove_junk = f.remove_junk := by
  refine ⟨?_, ?_, ?_⟩
  · intro h
    cases f <;>
      first
        | (simp only [RawFrame.push] <;> (try split_ifs) <;> simp [RawFrame.get_state])
        | simp [RawFrame.get_state] at h
  · intro h
    cases f <;> simp_all [RawFrame.get_state, RawFrame.push]
  · cases f <;> rfl

/-- Witness for `rawframe_state_monotone` at concrete frames: a building
frame stays non-empty, a complete message becomes `OkAndJunk`, and junk
removal is idempotent on a junk frame. -/
theorem rawframe_state_monotone_witness :
    ((RawFrame.Stx.push 7).get_state = .Building ∨ (RawFrame.Stx.push 7).get_state = .Ok ∨
      (RawFrame.Stx.push 7).get_state = .Junk) ∧
    ((RawFrame.Ok 1 0 [] 1).push 9 = .OkAndJunk 1 0 [] 1 [9]) ∧
    (RawFrame.Junk [4, 5]).remove_junk.remove_junk = (RawFrame.Junk [4, 5]).remove_junk := by
  refine ⟨(rawframe_state_monotone .Stx 7).1 rfl, ?_, (rawframe_state_monotone (.Junk [4, 5]) 0).2.2⟩
  exact ((rawframe_state_monotone (.Ok 1 0 [] 1) 9).2.1 rfl).2 1 0 [] 1 rfl

/-- C6: `try_extend_data_item` on an `Ok(t, l, p, x)` frame succeeds exactly
when `l` plus the encoded item length stays at most 250, producing
`Ok(t, l + |e|, p ++ e, x')` with `x'` the XOR of the tag, the new length
and the new payload; an overflow returns `MaxLengthOverflow` leaving the
frame unchanged; any non-`Ok` variant returns `IsNotOk` leaving the frame
unchanged. -/
theorem try_extend_data_item_spec (f : RawFrame) (di : DataItem) :
    (∀ tag len values xor, f = .Ok tag len values xor →
      (len + di.encode.length ≤ 250 →
        f.try_extend_data_item di =
          (.ok (), .Ok tag (len + di.encode.length) (values ++ di.encode)
            (calcul_xor tag (len + di.encode.length) (values ++ di.encode)))) ∧
      (250 < len + di.encode.length →
        f.try_extend_data_item di = (.error .MaxLengthOverflow, f))) ∧
    ((∀ tag len values xor, f ≠ .Ok tag len values xor) →
      f.try_extend_data_item di = (.error .IsNotOk, f)) := by
  constructor
  · rintro tag len values xor rfl
    constructor
    · intro hle
      simp only [RawFrame.try_extend_data_item, RAW_FRAME_MAX_LEN]
      rw [if_neg (by omega)]
      simp [Nat.add_comm]
    · intro hlt
      simp only [RawFrame.try_extend_data_item, RAW_FRAME_MAX_LEN]
      rw [if_pos (by omega)]
  · intro hne
    cases f <;> first
      | rfl
      | exact absurd rfl (hne _ _ _ _)

/-- Witness for `try_extend_data_item_spec`: extending an empty message with
a one-byte boolean item, and the `IsNotOk` error on an ACK frame. -/
theorem try_extend_data_item_spec_witness :
    (RawFrame.Ok 0x23 0 [] 0x23).try_extend_data_item ⟨0x45, .Bool, .bool true⟩ =
      (.ok (), .Ok 0x23 3 [0x45, 0x11, 1] (calcul_xor 0x23 3 [0x45, 0x11, 1])) ∧
    RawFrame.Ack.try_extend_data_item ⟨0x45, .Bool, .bool true⟩ = (.error .IsNotOk, .Ack) := by
  constructor
  · exact ((try_extend_data_item_spec (.Ok 0x23 0 [] 0x23)
      ⟨0x45, .Bool, .bool true⟩).1 0x23 0 [] 0x23 rfl).1 (by decide)
  · exact (try_extend_data_item_spec .Ack ⟨0x45, .Bool, .bool true⟩).2 (by simp)

/-! ## RawFrame parsing: Ok states are exactly the valid frames -/

theorem frameInv_push (f : RawFrame) (b : Nat) (h : FrameInv f) : FrameInv (f.push b) := by
  cases f <;> simp only [RawFrame.push] <;> (try split_ifs) <;>
    simp_all [FrameInv, calcul_xor] <;> omega

theorem frameInv_extend (s : List Nat) :
    ∀ f : RawFrame, FrameInv f → FrameInv (f.extend s) := by
  induction s with
  | nil => intro f h; exact h
  | cons b rest ih => intro f h; rw [extend_cons]; exact ih _ (frameInv_push f b h)

theorem valid_of_ok_state (s : List Nat) (h : (RawFrame.ofBytes s).get_state = .Ok) :
    ValidFrame s := by
  have hinv : FrameInv (RawFrame.ofBytes s) :=
    frameInv_extend s .Empty (by trivial)
  have henc := rawframe_encode_faithful s
  cases hx : RawFrame.ofBytes s <;> rw [hx] at h hinv henc
  case Ack => exact Or.inl henc.symm
  case Nack => exact Or.inr (Or.inl henc.symm)
  case Ok tag len values xor =>
    obtain ⟨hl, hxor⟩ := hinv
    refine Or.inr (Or.inr ⟨tag, values, ?_⟩)
    rw [← henc]
    simp [RawFrame.encode, hl, hxor]
  all_goals simp [RawFrame.get_state] at h

theorem extend_payload (t l : Nat) (p : List Nat) :
    ∀ acc : List Nat, acc ≠ [] → acc.length + p.length = l →
      (RawFrame.TagLenValue t l acc).extend p = .TagLenValue t l (acc ++ p) := by
  induction p with
  | nil => intro acc _ _; simp [RawFrame.extend]
  | cons b rest ih =>
      intro acc hacc hlen
      simp only [List.length_cons] at hlen
      rw [extend_cons]
      have hpush : (RawFrame.TagLenValue t l acc).push b = .TagLenValue t l (acc ++ [b]) := by
        simp only [RawFrame.push]
        rw [if_neg (by omega)]
      rw [hpush, ih (acc ++ [b]) (by simp) (by simp; omega)]
      simp

theorem ofBytes_message (t : Nat) (p : List Nat) :
    RawFrame.ofBytes (STX :: t :: p.length :: (p ++ [calcul_xor t p.length p, ETX])) =
      .Ok t p.length p (calcul_xor t p.length p) := by
  have h1 : RawFrame.Empty.push STX = .Stx := by norm_num [RawFrame.push, STX, ACK, NACK]
  have hxorpush : ∀ q : List Nat, q ≠ [] →
      (RawFrame.TagLenValue t q.length q).push (calcul_xor t q.length q) =
        .Xor t q.length q (calcul_xor t q.length q) := by
    intro q _
    simp [RawFrame.push]
  have hetx : ∀ q : List Nat, ∀ x : Nat, (RawFrame.Xor t q.length q x).push ETX = .Ok t q.length q x := by
    intro q x
    simp [RawFrame.push]
  show RawFrame.extend .Empty _ = _
  rw [extend_cons, extend_cons, extend_cons, h1]
  have h2 : (RawFrame.Stx.push t) = .Tag t := rfl
  have h3 : (RawFrame.Tag t).push p.length = .TagLen t p.length := rfl
  rw [h2, h3]
  cases p with
  | nil =>
      have hx0 : calcul_xor t 0 [] = t := by simp [calcul_xor]
      simp only [List.length_nil, List.nil_append, hx0]
      rw [extend_cons, extend_cons]
      have h4 : (RawFrame.TagLen t 0).push t = .Xor t 0 [] t := by
        simp [RawFrame.push]
      rw [h4]
      have h5 : (RawFrame.Xor t 0 [] t).push ETX = .Ok t 0 [] t := by
        simp [RawFrame.push]
      rw [h5]
      simp [RawFrame.extend, hx0]
  | cons b rest =>
      simp only [List.cons_append]
      rw [extend_cons]
      have h4 : (RawFrame.TagLen t (b :: rest).length).push b =
          .TagLenValue t (b :: rest).length [b] := by
        simp only [RawFrame.push]
        rw [if_neg (by simp)]
      rw [h4, extend_append]
      have h5 := extend_payload t (b :: rest).length rest [b] (by simp) (by simp; omega)
      simp only [List.singleton_append] at h5
      rw [h5, extend_cons]
      have h6 := hxorpush (b :: rest) (by simp)
      rw [h6, extend_cons]
      have h7 := hetx (b :: rest) (calcul_xor t (b :: rest).length (b :: rest))
      rw [h7]
      rfl

theorem ofBytes_ack : RawFrame.ofBytes [ACK] = .Ack := by decide

theorem ofBytes_nack : RawFrame.ofBytes [NACK] = .Nack := by decide

theorem ok_state_of_valid (s : List Nat) (h : ValidFrame s) :
    (RawFrame.ofBytes s).get_state = .Ok := by
  rcases h with h | h | ⟨t, p, h⟩
  · rw [h, ofBytes_ack]; rfl
  · rw [h, ofBytes_nack]; rfl
  · rw [h, ofBytes_message]; rfl

theorem ok_state_iff_valid (s : List Nat) :
    (RawFrame.ofBytes s).get_state = .Ok ↔ ValidFrame s :=
  ⟨valid_of_ok_state s, ok_state_of_valid s⟩

theorem valid_not_nil : ¬ ValidFrame [] := by
  intro h
  rcases h with h | h | ⟨t, p, h⟩ <;> simp at h

theorem valid_take_ge (s : List Nat) (hs : ValidFrame s) (n : Nat)
    (ht : ValidFrame (s.take n)) : s.length ≤ n := by
  rcases hs with h | h | ⟨t, p, h⟩
  · subst h
    cases n with
    | zero => exact absurd ht (by simpa using valid_not_nil)
    | succ m => simp
  · subst h
    cases n with
    | zero => exact absurd ht (by simpa using valid_not_nil)
    | succ m => simp
  · subst h
    have hcat := List.take_append_drop n
      (STX :: t :: p.length :: (p ++ [calcul_xor t p.length p, ETX]))
    rcases ht with h2 | h2 | ⟨t2, p2, h2⟩
    · rw [h2] at hcat
      simp only [List.cons_append, List.nil_append] at hcat
      injection hcat with hc1 hc2
      simp [ACK, STX] at hc1
    · rw [h2] at hcat
      simp only [List.cons_append, List.nil_append] at hcat
      injection hcat with hc1 hc2
      simp [NACK, STX] at hc1
    · have hlen2 : (List.take n (STX :: t :: p.length :: (p ++ [calcul_xor t p.length p, ETX]))).length
          = p2.length + 5 := by
        rw [h2]; simp
      rw [h2] at hcat
      simp only [List.cons_append] at hcat
      injection hcat with hc1 hcat
      injection hcat with hc2 hcat
      injection hcat with hc3 hcat
      have hslen : (STX :: t :: p.length :: (p ++ [calcul_xor t p.length p, ETX])).length
          = p.length + 5 := by simp
      rw [List.length_take, hslen, hc3] at hlen2
      omega

/-! ## Big-endian codec lemmas -/

theorem length_nat_to_be (w : Nat) : ∀ v, (nat_to_be w v).length = w := by
  induction w with
  | zero => intro v; rfl
  | succ w ih => intro v; simp [nat_to_be, ih]

theorem be_to_nat_append (l : List Nat) (b : Nat) :
    be_to_nat (l ++ [b]) = 256 * be_to_nat l + b := by
  simp [be_to_nat, List.foldl_append, Nat.mul_comm]

theorem be_to_nat_nat_to_be (w : Nat) : ∀ v, be_to_nat (nat_to_be w v) = v % 2 ^ (8 * w) := by
  induction w with
  | zero => intro v; simp [nat_to_be, be_to_nat]; omega
  | succ w ih =>
      intro v
      rw [show nat_to_be (w + 1) v = nat_to_be w (v / 256) ++ [v % 256] from rfl,
        be_to_nat_append, ih]
      have h2 : (2 : Nat) ^ (8 * (w + 1)) = 256 * 2 ^ (8 * w) := by
        have h3 : 8 * (w + 1) = 8 + 8 * w := by ring
        rw [h3, pow_add]
        norm_num
      rw [h2, Nat.mod_mul]
      omega

theorem take_append_be (w v : Nat) (rest : List Nat) :
    (nat_to_be w v ++ rest).take w = nat_to_be w v := by
  have hl := length_nat_to_be w v
  calc (nat_to_be w v ++ rest).take w
      = (nat_to_be w v ++ rest).take (nat_to_be w v).length := by rw [hl]
    _ = nat_to_be w v := List.take_left _ _

theorem twos_roundtrip_8 (v : Int) (h1 : -(2 ^ 7) ≤ v) (h2 : v < 2 ^ 7) :
    twos_to_int 8 (int_to_twos 8 v) = v := by
  simp only [twos_to_int, int_to_twos]
  norm_num
  split_ifs <;> omega

theorem twos_roundtrip_16 (v : Int) (h1 : -(2 ^ 15) ≤ v) (h2 : v < 2 ^ 15) :
    twos_to_int 16 (int_to_twos 16 v) = v := by
  simp only [twos_to_int, int_to_twos]
  norm_num
  split_ifs <;> omega

theorem twos_roundtrip_32 (v : Int) (h1 : -(2 ^ 31) ≤ v) (h2 : v < 2 ^ 31) :
    twos_to_int 32 (int_to_twos 32 v) = v := by
  simp only [twos_to_int, int_to_twos]
  norm_num
  split_ifs <;> omega

theorem twos_roundtrip_64 (v : Int) (h1 : -(2 ^ 63) ≤ v) (h2 : v < 2 ^ 63) :
    twos_to_int 64 (int_to_twos 64 v) = v := by
  simp only [twos_to_int, int_to_twos]
  norm_num
  split_ifs <;> omega

theorem int_to_twos_lt (w : Nat) (v : Int) : int_to_twos w v < 2 ^ w := by
  simp only [int_to_twos]
  have hpos : (0 : Int) < 2 ^ w := by positivity
  have hlt := Int.emod_lt_of_pos v hpos
  have hnn := Int.emod_nonneg v (ne_of_gt hpos)
  have hcast : ((2 ^ w : Nat) : Int) = 2 ^ w := by push_cast; ring
  omega

theorem length_be_encode (v : TValue)
    (hvec : ∀ n bytes, v = .vecU8 n bytes → bytes.length = n) :
    (be_data_encode v).length = (TFormat.fromTValue v).nb_bytes := by
  cases v with
  | bool b => cases b <;> rfl
  | vecU8 n bytes =>
      simpa [be_data_encode, TFormat.fromTValue, TFormat.nb_bytes] using hvec n bytes rfl
  | _ => simp [be_data_encode, TFormat.fromTValue, TFormat.nb_bytes, length_nat_to_be]

set_option maxRecDepth 4000 in
theorem fromU8_toU8 (f : TFormat) (h : ∀ n, f = .VecU8 n → n ≤ 127) :
    TFormat.fromU8 f.toU8 = f := by
  cases f with
  | VecU8 n =>
      have hn := h n rfl
      simp only [TFormat.toU8, if_pos hn, TFormat.fromU8]
      rw [if_neg (by omega), if_neg (fun h => by omega), if_neg (by omega),
        if_neg (fun h => by omega), if_neg (by omega), if_neg (fun h => by omega),
        if_neg (by omega), if_neg (fun h => by omega), if_neg (by omega),
        if_neg (fun h => by omega), if_neg (by omega), if_pos (by omega)]
      congr 1
      omega
  | _ => rfl

theorem be_decode_encode (v : TValue) (rest : List Nat) (hwf : v.wf = true)
    (hvec : ∀ n bytes, v = .vecU8 n bytes → bytes.length = n ∧ rest = []) :
    be_data_decode (TFormat.fromTValue v) (be_data_encode v ++ rest) = .ok v := by
  cases v with
  | bool b =>
      cases b <;>
        simp [be_data_decode, be_data_encode, TFormat.fromTValue, TFormat.nb_bytes]
  | u8 n =>
      simp [be_data_decode, be_data_encode, TFormat.fromTValue, TFormat.nb_bytes]
  | i8 n =>
      simp only [TValue.wf, decide_eq_true_eq] at hwf
      simp [be_data_decode, be_data_encode, TFormat.fromTValue, TFormat.nb_bytes]
      exact twos_roundtrip_8 n hwf.1 hwf.2
  | u16 n =>
      simp only [TValue.wf, decide_eq_true_eq] at hwf
      simp only [TFormat.fromTValue, be_data_decode, be_data_encode, TFormat.nb_bytes]
      rw [if_neg (by simp [length_nat_to_be]), take_append_be, be_to_nat_nat_to_be]
      have hm : n % 2 ^ (8 * 2) = n := Nat.mod_eq_of_lt (by norm_num at hwf ⊢; omega)
      rw [hm]
  | i16 n =>
      simp only [TValue.wf, decide_eq_true_eq] at hwf
      simp only [TFormat.fromTValue, be_data_decode, be_data_encode, TFormat.nb_bytes]
      rw [if_neg (by simp [length_nat_to_be]), take_append_be, be_to_nat_nat_to_be]
      have hm : int_to_twos 16 n % 2 ^ (8 * 2) = int_to_twos 16 n :=
        Nat.mod_eq_of_lt (by have := int_to_twos_lt 16 n; norm_num at this ⊢; omega)
      rw [hm, twos_roundtrip_16 n hwf.1 hwf.2]
  | u32 n =>
      simp only [TValue.wf, decide_eq_true_eq] at hwf
      simp only [TFormat.fromTValue, be_data_decode, be_data_encode, TFormat.nb_bytes]
      rw [if_neg (by simp [length_nat_to_be]), take_append_be, be_to_nat_nat_to_be]
      have hm : n % 2 ^ (8 * 4) = n := Nat.mod_eq_of_lt (by norm_num at hwf ⊢; omega)
      rw [hm]
  | i32 n =>
      simp only [TValue.wf, decide_eq_true_eq] at hwf
      simp only [TFormat.fromTValue, be_data_decode, be_data_encode, TFormat.nb_bytes]
      rw [if_neg (by simp [length_nat_to_be]), take_append_be, be_to_nat_nat_to_be]
      have hm : int_to_twos 32 n % 2 ^ (8 * 4) = int_to_twos 32 n :=
        Nat.mod_eq_of_lt (by have := int_to_twos_lt 32 n; norm_num at this ⊢; omega)
      rw [hm, twos_roundtrip_32 n hwf.1 hwf.2]
  | u64 n =>
      simp only [TValue.wf, decide_eq_true_eq] at hwf
      simp only [TFormat.fromTValue, be_data_decode, be_data_encode, TFormat.nb_bytes]
      rw [if_neg (by simp [length_nat_to_be]), take_append_be, be_to_nat_nat_to_be]
      have hm : n % 2 ^ (8 * 8) = n := Nat.mod_eq_of_lt (by norm_num at hwf ⊢; omega)
      rw [hm]
  | i64 n =>
      simp only [TValue.wf, decide_eq_true_eq] at hwf
      simp only [TFormat.fromTValue, be_data_decode, be_data_encode, TFormat.nb_bytes]
      rw [if_neg (by simp [length_nat_to_be]), take_append_be, be_to_nat_nat_to_be]
      have hm : int_to_twos 64 n % 2 ^ (8 * 8) = int_to_twos 64 n :=
        Nat.mod_eq_of_lt (by have := int_to_twos_lt 64 n; norm_num at this ⊢; omega)
      rw [hm, twos_roundtrip_64 n hwf.1 hwf.2]
  | f32 bits =>
      simp only [TValue.wf, decide_eq_true_eq] at hwf
      simp only [TFormat.fromTValue, be_data_decode, be_data_encode, TFormat.nb_bytes]
      rw [if_neg (by simp [length_nat_to_be]), take_append_be, be_to_nat_nat_to_be]
      have hm : bits % 2 ^ (8 * 4) = bits := Nat.mod_eq_of_lt (by norm_num at hwf ⊢; omega)
      rw [hm]
  | f64 bits =>
      simp only [TValue.wf, decide_eq_true_eq] at hwf
      simp only [TFormat.fromTValue, be_data_decode, be_data_encode, TFormat.nb_bytes]
      rw [if_neg (by simp [length_nat_to_be]), take_append_be, be_to_nat_nat_to_be]
      have hm : bits % 2 ^ (8 * 8) = bits := Nat.mod_eq_of_lt (by norm_num at hwf ⊢; omega)
      rw [hm]
  | vecU8 n bytes =>
      obtain ⟨hb, hr⟩ := hvec n bytes rfl
      subst hr
      simp [be_data_decode, be_data_encode, TFormat.fromTValue, TFormat.nb_bytes, hb]

/-! ## DataItem round-trip lemmas -/

theorem decode_new_item (t : Nat) (v : TValue) (rest : List Nat) (hwf : v.wf = true)
    (hvec : ∀ n bytes, v = .vecU8 n bytes → bytes.length = n ∧ n ≤ 127 ∧ rest = []) :
    DataItem.decode ((DataItem.new t v).encode ++ rest) =
      .ok (DataItem.new t v, 2 + (TFormat.fromTValue v).nb_bytes) := by
  have hlenc : (be_data_encode v).length = (TFormat.fromTValue v).nb_bytes :=
    length_be_encode v (fun n bytes hv => (hvec n bytes hv).1)
  have hfmt : TFormat.fromU8 (TFormat.fromTValue v).toU8 = TFormat.fromTValue v := by
    cases v
    case vecU8 n bytes =>
      apply fromU8_toU8
      intro m hm
      injection hm with hnm
      subst hnm
      exact (hvec n bytes rfl).2.1
    all_goals rfl
  simp only [DataItem.new, DataItem.encode, List.cons_append, DataItem.decode]
  rw [if_neg (by simp)]
  simp only [List.getD_cons_zero, List.getD_cons_succ, hfmt]
  rw [if_neg (by simp [hlenc]; omega)]
  have hdrop : List.drop 2 (t :: (TFormat.fromTValue v).toU8 :: (be_data_encode v ++ rest)) =
      be_data_encode v ++ rest := rfl
  rw [hdrop, be_decode_encode v rest hwf
    (fun n bytes hv => ⟨(hvec n bytes hv).1, (hvec n bytes hv).2.2⟩)]

theorem encode_new_item_length (t : Nat) (v : TValue)
    (hvec : ∀ n bytes, v = .vecU8 n bytes → bytes.length = n) :
    (DataItem.new t v).encode.length = 2 + (TFormat.fromTValue v).nb_bytes := by
  simp [DataItem.new, DataItem.encode, length_be_encode v hvec]
  omega

theorem ok_payload_items_cons (t : Nat) (v : TValue) (rest : List (Nat × TValue))
    (h : ok_payload_items ((t, v) :: rest) = true) :
    v.wf = true ∧
      (∀ n bytes, v = .vecU8 n bytes → bytes.length = n ∧ n ≤ 127 ∧ rest = []) ∧
      ok_payload_items rest = true := by
  simp only [ok_payload_items, Bool.and_eq_true] at h
  refine ⟨h.1.1, ?_, h.2⟩
  intro n bytes hv
  subst hv
  have h2 := h.1.2
  simp only [Bool.and_eq_true, decide_eq_true_eq, List.isEmpty_iff] at h2
  exact ⟨h2.1.1, h2.1.2, h2.2⟩

theorem decode_all_fuel_encode (items : List (Nat × TValue)) :
    ∀ fuel, (encode_items items).length ≤ fuel → ok_payload_items items = true →
      decode_all_fuel fuel (encode_items items) =
        .ok (items.map fun ti => DataItem.new ti.1 ti.2) := by
  induction items with
  | nil =>
      intro fuel _ _
      cases fuel <;> rfl
  | cons ti rest ih =>
      intro fuel hfuel hok
      obtain ⟨t, v⟩ := ti
      obtain ⟨hwf, hvec, hrest⟩ := ok_payload_items_cons t v rest hok
      have hlenc : (DataItem.new t v).encode.length = 2 + (TFormat.fromTValue v).nb_bytes :=
        encode_new_item_length t v (fun n bytes hv => (hvec n bytes hv).1)
      have hcons : encode_items ((t, v) :: rest) =
          (DataItem.new t v).encode ++ encode_items rest := rfl
      rw [hcons] at hfuel ⊢
      cases fuel with
      | zero =>
          exfalso
          have : 2 ≤ (DataItem.new t v).encode.length := by
            simp [DataItem.new, DataItem.encode]
          simp only [List.length_append] at hfuel
          omega
      | succ fuel =>
          have hne : (DataItem.new t v).encode ++ encode_items rest =
              t :: (TFormat.fromTValue v).toU8 :: (be_data_encode v ++ encode_items rest) := by
            simp [DataItem.new, DataItem.encode]
          rw [hne]
          have hdec := decode_new_item t v (encode_items rest) hwf
            (fun n bytes hv =>
              ⟨(hvec n bytes hv).1, (hvec n bytes hv).2.1, by rw [(hvec n bytes hv).2.2]; rfl⟩)
          rw [hne] at hdec
          simp only [decode_all_fuel, hdec]
          have hdrop : List.drop (2 + (TFormat.fromTValue v).nb_bytes)
              (t :: (TFormat.fromTValue v).toU8 :: (be_data_encode v ++ encode_items rest)) =
              encode_items rest := by
            have h1 : t :: (TFormat.fromTValue v).toU8 :: (be_data_encode v ++ encode_items rest) =
                (DataItem.new t v).encode ++ encode_items rest := hne.symm
            rw [h1, ← hlenc, List.drop_left]
          rw [hdrop]
          have hfe : (encode_items rest).length ≤ fuel := by
            simp only [List.length_append, hlenc] at hfuel
            omega
          rw [ih fuel hfe hrest]
          rfl

theorem decode_all_encode_items (items : List (Nat × TValue))
    (hok : ok_payload_items items = true) :
    DataItem.decode_all (encode_items items) =
      .ok (items.map fun ti => DataItem.new ti.1 ti.2) :=
  decode_all_fuel_encode items _ le_rfl hok

/-! ## Builder shape of constructed message frames -/

theorem try_extend_all_shape (items : List (Nat × TValue)) :
    ∀ (tag : Nat) (p : List Nat) (f : RawFrame), p.length ≤ 250 →
      try_extend_all (.Ok tag p.length p (calcul_xor tag p.length p)) items = some f →
      f = .Ok tag (p ++ encode_items items).length (p ++ encode_items items)
            (calcul_xor tag (p ++ encode_items items).length (p ++ encode_items items)) ∧
        (p ++ encode_items items).length ≤ 250 := by
  induction items with
  | nil =>
      intro tag p f hp h
      simp only [try_extend_all] at h
      injection h with h
      subst h
      constructor
      · simp [encode_items]
      · simpa [encode_items] using hp
  | cons ti rest ih =>
      intro tag p f hp h
      obtain ⟨t, v⟩ := ti
      simp only [try_extend_all, RawFrame.try_extend_data_item] at h
      split at h
      · rename_i u f2 hif
        split at hif
        · simp at hif
        · rename_i hlen
          simp only [Prod.mk.injEq] at hif
          rw [← hif.2] at h
          have hshape : RawFrame.Ok tag ((DataItem.new t v).encode.length + p.length)
                (p ++ (DataItem.new t v).encode)
                (calcul_xor tag ((DataItem.new t v).encode.length + p.length)
                  (p ++ (DataItem.new t v).encode)) =
              RawFrame.Ok tag (p ++ (DataItem.new t v).encode).length
                (p ++ (DataItem.new t v).encode)
                (calcul_xor tag (p ++ (DataItem.new t v).encode).length
                  (p ++ (DataItem.new t v).encode)) := by
            simp only [List.length_append]
            rw [Nat.add_comm]
          rw [hshape] at h
          have hple : (p ++ (DataItem.new t v).encode).length ≤ 250 := by
            simp only [List.length_append]
            simp only [RAW_FRAME_MAX_LEN] at hlen
            omega
          obtain ⟨hf, hl⟩ := ih tag (p ++ (DataItem.new t v).encode) f hple h
          have hassoc : p ++ (DataItem.new t v).encode ++ encode_items rest =
              p ++ encode_items ((t, v) :: rest) := by
            simp [encode_items]
          rw [hassoc] at hf hl
          exact ⟨hf, hl⟩
      · simp at h

/-! ## C1: frame codec round-trip -/

/-- C1 (amended): feeding any byte stream into a fresh builder reaches state
`Ok` exactly when the stream is a complete valid wire frame, and `encode()`
always returns exactly the fed bytes; and for a message frame built with
`new_message` and `try_extend_data_item` whose items are in range and place
any `VecU8` item (with its declared byte count, at most 127) only last,
feeding its encoding into a fresh builder reproduces the frame, reaches `Ok`
precisely on the last byte, and re-parsing via `DataFrame` yields an equal
`DataFrame` with each item format derived from its value.  (The unamended
claim fails when a `VecU8` item is followed by further items: the decoder
hands a `VecU8` item the whole remaining payload.) -/
theorem tlv_frame_roundtrip :
    (∀ s : List Nat,
      ((RawFrame.ofBytes s).get_state = .Ok ↔ ValidFrame s) ∧
      (RawFrame.ofBytes s).encode = s) ∧
    (∀ (tag : Nat) (items : List (Nat × TValue)) (f : RawFrame),
      build_message tag items = some f → ok_payload_items items = true →
      RawFrame.ofBytes f.encode = f ∧
      (RawFrame.ofBytes f.encode).get_state = .Ok ∧
      (∀ n, n < f.encode.length → (RawFrame.ofBytes (f.encode.take n)).get_state ≠ .Ok) ∧
      DataFrame.tryFrom (RawFrame.ofBytes f.encode) =
        .ok (.Message tag (items.map fun ti => DataItem.new ti.1 ti.2))) := by
  constructor
  · intro s
    exact ⟨ok_state_iff_valid s, rawframe_encode_faithful s⟩
  · intro tag items f hbuild hok
    have hnm : RawFrame.new_message tag =
        .Ok tag ([] : List Nat).length [] (calcul_xor tag ([] : List Nat).length []) := by
      simp [RawFrame.new_message, calcul_xor]
    rw [build_message, hnm] at hbuild
    obtain ⟨hf, hl⟩ := try_extend_all_shape items tag [] f (by simp) hbuild
    simp only [List.nil_append] at hf hl
    have henc : f.encode = STX :: tag :: (encode_items items).length ::
        (encode_items items ++
          [calcul_xor tag (encode_items items).length (encode_items items), ETX]) := by
      rw [hf]; rfl
    have hof : RawFrame.ofBytes f.encode = f := by
      rw [henc, ofBytes_message, hf]
    refine ⟨hof, ?_, ?_, ?_⟩
    · rw [hof, hf]; rfl
    · intro n hn hok2
      have hvalid : ValidFrame (f.encode.take n) := valid_of_ok_state _ hok2
      have hvs : ValidFrame f.encode := by
        rw [henc]
        exact Or.inr (Or.inr ⟨tag, encode_items items, rfl⟩)
      have := valid_take_ge f.encode hvs n hvalid
      omega
    · rw [hof, hf]
      simp only [DataFrame.tryFrom]
      rw [decode_all_encode_items items hok]

/-- Witness for `tlv_frame_roundtrip`: a one-item `U16` message round-trips
to its original `DataFrame`. -/
theorem tlv_frame_roundtrip_witness :
    build_message 1 [(2, TValue.u16 123)] =
      some (RawFrame.Ok 1 4 [2, 2, 0, 123] (calcul_xor 1 4 [2, 2, 0, 123])) ∧
    ok_payload_items [(2, TValue.u16 123)] = true ∧
    DataFrame.tryFrom (RawFrame.ofBytes
        (RawFrame.Ok 1 4 [2, 2, 0, 123] (calcul_xor 1 4 [2, 2, 0, 123])).encode) =
      .ok (.Message 1 [DataItem.new 2 (TValue.u16 123)]) := by
  have hb : build_message 1 [(2, TValue.u16 123)] =
      some (RawFrame.Ok 1 4 [2, 2, 0, 123] (calcul_xor 1 4 [2, 2, 0, 123])) := by decide
  exact ⟨hb, by decide,
    (tlv_frame_roundtrip.2 1 [(2, TValue.u16 123)] _ hb (by decide)).2.2.2⟩

/-- C1 counterexample: a message frame holding a `VecU8` item followed by a
second item is accepted by the builder, but re-parsing its encoding yields a
different `DataFrame` — the decoded `VecU8` item swallows the remaining
payload bytes of the following item. -/
theorem tlv_frame_roundtrip_counterexample :
    build_message 5 [(1, TValue.vecU8 1 [65]), (2, TValue.u8 7)] =
      some (RawFrame.Ok 5 6 [1, 129, 65, 2, 1, 7] (calcul_xor 5 6 [1, 129, 65, 2, 1, 7])) ∧
    DataFrame.tryFrom (RawFrame.ofBytes
        (RawFrame.Ok 5 6 [1, 129, 65, 2, 1, 7] (calcul_xor 5 6 [1, 129, 65, 2, 1, 7])).encode) =
      .ok (.Message 5 [⟨1, .VecU8 1, .vecU8 1 [65, 2, 1, 7]⟩, ⟨2, .U8, .u8 7⟩]) ∧
    DataFrame.Message 5 [⟨1, .VecU8 1, .vecU8 1 [65, 2, 1, 7]⟩, ⟨2, .U8, .u8 7⟩] ≠
      DataFrame.Message 5 [DataItem.new 1 (TValue.vecU8 1 [65]), DataItem.new 2 (TValue.u8 7)] := by
  refine ⟨by decide, by decide, by decide⟩

/-! ## Ledger helper lemmas -/

theorem getLast?_drop_of_lt {α : Type} (l : List α) (k : Nat) (h : k < l.length) :
    (l.drop k).getLast? = l.getLast? := by
  rw [List.getLast?_eq_getElem?, List.getLast?_eq_getElem?, List.getElem?_drop]
  congr 1
  simp only [List.length_drop]
  omega

theorem set_getD_self (l : List User) (i : Nat) (h : i < l.length) :
    l.set i (l.getD i default) = l := by
  apply List.ext_getElem?
  intro j
  by_cases hij : i = j
  · subst hij
    rw [List.getElem?_set_eq (by omega), List.getD_eq_getElem l default h,
      List.getElem?_eq_getElem h]
  · rw [List.getElem?_set_ne hij]

theorem find_offset_spec (pred : NotificationChange → Bool)
    (changes : List NotificationChange) :
    ∀ n off, changes.length - off = n →
      (∀ j, find_offset pred changes off = some j →
        off ≤ j ∧ j < changes.length ∧ pred (changes.getD j default) = true ∧
          ∀ k, off ≤ k → k < j → pred (changes.getD k default) = false) ∧
      (find_offset pred changes off = none →
        ∀ k, off ≤ k → k < changes.length → pred (changes.getD k default) = false) := by
  intro n
  induction n with
  | zero =>
      intro off hoff
      have hle : changes.length ≤ off := by omega
      have hdrop : changes.drop off = [] := List.drop_eq_nil_of_le hle
      constructor
      · intro j hj
        rw [find_offset, hdrop] at hj
        exact absurd hj (by simp [find_offset_aux])
      · intro _ k hk1 hk2
        omega
  | succ n ih =>
      intro off hoff
      have hlt : off < changes.length := by omega
      have hdrop : changes.drop off = changes[off] :: changes.drop (off + 1) :=
        List.drop_eq_getElem_cons hlt
      have hgetD : changes.getD off default = changes[off] :=
        List.getD_eq_getElem changes default hlt
      have hstep : find_offset pred changes off =
          if pred changes[off] then some off
          else find_offset pred changes (off + 1) := by
        rw [find_offset, hdrop]
        rfl
      obtain ⟨ihs, ihn⟩ := ih (off + 1) (by omega)
      by_cases hp : pred changes[off] = true
      · constructor
        · intro j hj
          rw [hstep, if_pos hp] at hj
          injection hj with hj
          subst hj
          exact ⟨le_rfl, hlt, hgetD ▸ hp, fun k hk1 hk2 => absurd (lt_of_le_of_lt hk1 hk2) (lt_irrefl _)⟩
        · intro hnone
          rw [hstep, if_pos hp] at hnone
          exact absurd hnone (by simp)
      · have hpf : pred changes[off] = false := by
          cases hval : pred changes[off]
          · rfl
          · exact absurd hval hp
        constructor
        · intro j hj
          rw [hstep, if_neg (by simp [hpf])] at hj
          obtain ⟨h1, h2, h3, h4⟩ := ihs j hj
          refine ⟨by omega, h2, h3, ?_⟩
          intro k hk1 hk2
          rcases Nat.eq_or_lt_of_le hk1 with hk | hk
          · rw [← hk, hgetD]
            exact hpf
          · exact h4 k (by omega) hk2
        · intro hnone k hk1 hk2
          rw [hstep, if_neg (by simp [hpf])] at hnone
          rcases Nat.eq_or_lt_of_le hk1 with hk | hk
          · rw [← hk, hgetD]
            exact hpf
          · exact ihn hnone k (by omega) hk2

theorem min_notif_le_init (users : List User) :
    ∀ top, min_notif_index users top ≤ top := by
  induction users with
  | nil => intro top; exact le_rfl
  | cons u rest ih =>
      intro top
      simp only [min_notif_index, List.foldl_cons] at *
      by_cases hc : (u.use_notification && decide (u.next_notification_index < top)) = true
      · rw [if_pos hc]
        simp only [Bool.and_eq_true, decide_eq_true_eq] at hc
        exact le_trans (ih u.next_notification_index) (le_of_lt hc.2)
      · rw [if_neg hc]
        exact ih top

theorem min_notif_le_mem (users : List User) :
    ∀ top u, u ∈ users → u.use_notification = true →
      min_notif_index users top ≤ u.next_notification_index := by
  induction users with
  | nil => intro top u hu _; exact absurd hu (List.not_mem_nil u)
  | cons v rest ih =>
      intro top u hu hn
      simp only [min_notif_index, List.foldl_cons] at *
      rcases List.mem_cons.mp hu with hu | hu
      · subst hu
        by_cases hc : (u.use_notification && decide (u.next_notification_index < top)) = true
        · rw [if_pos hc]
          exact min_notif_le_init rest u.next_notification_index
        · rw [if_neg hc]
          simp only [hn, Bool.true_and, decide_eq_true_eq] at hc
          exact le_trans (min_notif_le_init rest top) (by omega)
      · by_cases hc : (v.use_notification && decide (v.next_notification_index < top)) = true
        · rw [if_pos hc]
          exact ih v.next_notification_index u hu hn
        · rw [if_neg hc]
          exact ih top u hu hn

theorem min_notif_attained (users : List User) :
    ∀ top, min_notif_index users top = top ∨
      ∃ u ∈ users, u.use_notification = true ∧
        min_notif_index users top = u.next_notification_index := by
  induction users with
  | nil => intro top; exact Or.inl rfl
  | cons v rest ih =>
      intro top
      simp only [min_notif_index, List.foldl_cons] at *
      by_cases hc : (v.use_notification && decide (v.next_notification_index < top)) = true
      · rw [if_pos hc]
        simp only [Bool.and_eq_true, decide_eq_true_eq] at hc
        rcases ih v.next_notification_index with h | ⟨u, hu, hn, he⟩
        · exact Or.inr ⟨v, List.mem_cons_self v rest, hc.1, h⟩
        · exact Or.inr ⟨u, List.mem_cons_of_mem v hu, hn, he⟩
      · rw [if_neg hc]
        rcases ih top with h | ⟨u, hu, hn, he⟩
        · exact Or.inl h
        · exact Or.inr ⟨u, List.mem_cons_of_mem v hu, hn, he⟩

theorem is_same_iff (s : IdUsers) (c : NotificationChange) (now : Rat) :
    s.is_same_as_last_change c now = true ↔
      ∃ last, s.vec_changes.getLast? = some last ∧ last.id_user = c.id_user ∧
        last.id_tag = c.id_tag ∧ s.date_last_change ≤ now ∧
        now - s.date_last_change < DURATION_CHANGE_FILTER_SECS := by
  unfold IdUsers.is_same_as_last_change
  cases h : s.vec_changes.getLast?
  · simp
  · simp

theorem some_notif_iff (s : IdUsers) :
    s.is_some_users_use_notification = true ↔
      ∃ u ∈ s.vec_users, u.use_notification = true := by
  unfold IdUsers.is_some_users_use_notification
  rw [List.any_eq_true]

theorem inv_do_purge (s : IdUsers) (nb : Nat) (h : s.inv) :
    (s.do_purge_changes nb).inv := by
  intro u hu
  simp only [IdUsers.do_purge_changes, List.mem_map] at hu
  obtain ⟨v, hv, rfl⟩ := hu
  simp only [IdUsers.do_purge_changes, List.length_drop]
  have := h v hv
  omega

theorem inv_purge (s : IdUsers) (h : s.inv) : s.purge_changes.inv := by
  unfold IdUsers.purge_changes
  split
  · exact h
  · dsimp only
    split
    · exact inv_do_purge s _ h
    · exact h

theorem someNotif_do_purge (s : IdUsers) (nb : Nat) :
    (s.do_purge_changes nb).is_some_users_use_notification =
      s.is_some_users_use_notification := by
  simp [IdUsers.is_some_users_use_notification, IdUsers.do_purge_changes, List.any_map,
    Function.comp_def]

theorem someNotif_purge (s : IdUsers) :
    s.purge_changes.is_some_users_use_notification = s.is_some_users_use_notification := by
  unfold IdUsers.purge_changes
  split
  · rfl
  · dsimp only
    split
    · exact someNotif_do_purge s _
    · rfl

theorem someNotif_add_change (s : IdUsers) (c : NotificationChange) (now : Rat) :
    (s.add_change c now).is_some_users_use_notification =
      s.is_some_users_use_notification := by
  unfold IdUsers.add_change
  split
  · rw [someNotif_purge]
    rfl
  · rfl

theorem add_change_append (s : IdUsers) (c : NotificationChange) (now : Rat) (hinv : s.inv)
    (hsame : s.is_same_as_last_change c now = false)
    (hnotif : s.is_some_users_use_notification = true) :
    (s.add_change c now).vec_changes.getLast? = some c ∧
    (s.add_change c now).date_last_change = now ∧
    (∃ k, k ≤ s.vec_changes.length ∧
      (s.add_change c now).vec_changes = (s.vec_changes ++ [c]).drop k) ∧
    (s.add_change c now).vec_changes ≠ [] := by
  have hbr : s.add_change c now =
      IdUsers.purge_changes
        { s with vec_changes := s.vec_changes ++ [c], date_last_change := now } := by
    unfold IdUsers.add_change
    rw [if_pos (by rw [hsame, hnotif]; rfl)]
  set s1 : IdUsers :=
    { s with vec_changes := s.vec_changes ++ [c], date_last_change := now } with hs1
  have hne : s1.vec_changes ≠ [] := by simp [hs1]
  have hm : min_notif_index s1.vec_users s1.vec_changes.length ≤ s.vec_changes.length := by
    obtain ⟨u, hu, hun⟩ := (some_notif_iff s).mp hnotif
    exact le_trans (min_notif_le_mem s1.vec_users _ u hu hun) (hinv u hu)
  rw [hbr]
  unfold IdUsers.purge_changes
  rw [if_neg hne]
  dsimp only
  split
  · rename_i hpos
    refine ⟨?_, rfl, ⟨min_notif_index s1.vec_users s1.vec_changes.length, hm, rfl⟩, ?_⟩
    · show ((s.vec_changes ++ [c]).drop _).getLast? = some c
      rw [getLast?_drop_of_lt _ _ (by simp [hs1] at hm ⊢; omega)]
      exact List.getLast?_concat _
    · show (s.vec_changes ++ [c]).drop _ ≠ []
      apply List.ne_nil_of_length_pos
      simp only [List.length_drop, List.length_append, List.length_singleton]
      simp only [hs1, List.length_append, List.length_singleton] at hm
      omega
  · exact ⟨List.getLast?_concat _, rfl, ⟨0, by omega, rfl⟩, hne⟩

theorem inv_set_next (s : IdUsers) (u next : Nat) (h : s.inv)
    (hn : next ≤ s.vec_changes.length) : (s.set_next u next).inv := by
  intro v hv
  simp only [IdUsers.set_next] at hv
  rcases List.mem_or_eq_of_mem_set hv with h2 | h2
  · exact h v h2
  · subst h2
    exact hn

theorem inv_init (t0 : Rat) : (IdUsers.init t0).inv := by
  intro u hu
  simp only [IdUsers.init, List.mem_singleton] at hu
  subst hu
  simp [IdUsers.init]

theorem inv_get_id_user (s : IdUsers) (hinv : s.inv) (name : String) (b : Bool) :
    ((s.get_id_user name b).2).inv := by
  intro u hu
  simp only [IdUsers.get_id_user] at hu ⊢
  rcases List.mem_append.mp hu with h | h
  · exact hinv u h
  · simp only [List.mem_singleton] at h
    subst h
    exact le_rfl

theorem inv_add_change (s : IdUsers) (hinv : s.inv) (c : NotificationChange) (now : Rat) :
    (s.add_change c now).inv := by
  unfold IdUsers.add_change
  split
  · apply inv_purge
    intro u hu
    have := hinv u hu
    simp only [List.length_append, List.length_singleton]
    omega
  · exact hinv

theorem inv_get_change (s : IdUsers) (hinv : s.inv) (u : Nat) (a b : Bool) :
    ((s.get_change u a b).2).inv := by
  unfold IdUsers.get_change
  split
  · exact hinv
  · split
    · exact hinv
    · dsimp only
      split
      · rename_i j hj
        apply inv_set_next s u (j + 1) hinv
        have := ((find_offset_spec _ s.vec_changes
          (s.vec_changes.length - (s.vec_users.getD u default).next_notification_index)
          (s.vec_users.getD u default).next_notification_index rfl).1 j hj).2.1
        omega
      · split
        · exact inv_set_next s u s.vec_changes.length hinv le_rfl
        · exact hinv

theorem min_notif_zero_after_append (s : IdUsers) (hinv : s.inv) (c : NotificationChange)
    (now : Rat) (hsame : s.is_same_as_last_change c now = false)
    (hnotif : s.is_some_users_use_notification = true) :
    min_notif_index (s.add_change c now).vec_users
      (s.add_change c now).vec_changes.length = 0 := by
  have hbr : s.add_change c now =
      IdUsers.purge_changes
        { s with vec_changes := s.vec_changes ++ [c], date_last_change := now } := by
    unfold IdUsers.add_change
    rw [if_pos (by rw [hsame, hnotif]; rfl)]
  rw [hbr]
  unfold IdUsers.purge_changes
  rw [if_neg (by simp)]
  dsimp only
  set m := min_notif_index s.vec_users (s.vec_changes ++ [c]).length with hm
  obtain ⟨w, hw, hwn⟩ := (some_notif_iff s).mp hnotif
  have hwL : w.next_notification_index ≤ s.vec_changes.length := hinv w hw
  have hmle : m ≤ w.next_notification_index := by
    rw [hm]
    exact min_notif_le_mem s.vec_users (s.vec_changes ++ [c]).length w hw hwn
  split
  · rename_i hpos
    simp only [IdUsers.do_purge_changes]
    rcases min_notif_attained s.vec_users (s.vec_changes ++ [c]).length with hatt | hatt
    · rw [← hm] at hatt
      simp only [List.length_append, List.length_singleton] at hatt
      omega
    · obtain ⟨u0, hu0, hu0n, hu0e⟩ := hatt
      rw [← hm] at hu0e
      have hz : u0.next_notification_index - m = 0 := by omega
      have hmem : (⟨u0.name, u0.use_notification, 0⟩ : User) ∈
          s.vec_users.map (fun u =>
            { u with next_notification_index := u.next_notification_index - m }) := by
        rw [List.mem_map]
        exact ⟨u0, hu0, by simp [hz]⟩
      have hle0 := min_notif_le_mem
        (s.vec_users.map (fun u =>
          { u with next_notification_index := u.next_notification_index - m }))
        (((s.vec_changes ++ [c]).drop m).length) _ hmem hu0n
      simp only at hle0
      omega
  · rename_i hpos
    rw [← hm]
    omega

/-! ## C5: ledger invariants -/

/-- C5: every ledger operation (`get_id_user`, `add_change`, `get_change`
and the purge they trigger) preserves the invariant that each user cursor is
at most the change-log length, the initial ledger satisfies it, and
immediately after an appending `add_change` (which runs a purge pass) the
minimum cursor over notification-enabled users is 0. -/
theorem ledger_invariants (s : IdUsers) (hinv : s.inv) :
    (∀ t0 : Rat, (IdUsers.init t0).inv) ∧
    (∀ name b, ((s.get_id_user name b).2).inv) ∧
    (∀ c now, (s.add_change c now).inv) ∧
    (∀ u a b, ((s.get_change u a b).2).inv) ∧
    (∀ c now, s.is_same_as_last_change c now = false →
      s.is_some_users_use_notification = true →
      min_notif_index (s.add_change c now).vec_users
        (s.add_change c now).vec_changes.length = 0) :=
  ⟨fun t0 => inv_init t0,
   fun name b => inv_get_id_user s hinv name b,
   fun c now => inv_add_change s hinv c now,
   fun u a b => inv_get_change s hinv u a b,
   fun c now hsame hnotif => min_notif_zero_after_append s hinv c now hsame hnotif⟩

/-- Witness for `ledger_invariants`: on a ledger with one subscribed user,
an appended change leaves the minimal subscribed cursor at 0. -/
theorem ledger_invariants_witness :
    min_notif_index
      ((IdUsers.mk [⟨"Anonymous user", false, 0⟩, ⟨"u", true, 0⟩] [] 0).add_change
        ⟨1, ⟨0, 1, 0, 0, 0⟩⟩ 1).vec_users
      ((IdUsers.mk [⟨"Anonymous user", false, 0⟩, ⟨"u", true, 0⟩] [] 0).add_change
        ⟨1, ⟨0, 1, 0, 0, 0⟩⟩ 1).vec_changes.length = 0 :=
  (ledger_invariants (IdUsers.mk [⟨"Anonymous user", false, 0⟩, ⟨"u", true, 0⟩] [] 0)
    (by simp [IdUsers.inv])).2.2.2.2 ⟨1, ⟨0, 1, 0, 0, 0⟩⟩ 1 (by decide) (by decide)

/-! ## C9: get_id_user_name out-of-bounds panic -/

/-- C9 (code bug): on a fresh database (one registered user, the anonymous
one, so `vec_users.len() = 1`), `Database::get_id_user_name(1)` passes the
`id_user <= vec_users.len()` bound check and then indexes `vec_users[1]` out
of bounds — a panic, modelled as `none` — although the function is
documented to return the anonymous-user name for any unregistered id; ids 0
and 2 behave as documented. -/
theorem get_id_user_name_panics :
    Database.get_id_user_name (Database.init 0) 1 = none ∧
    (Database.init 0).id_users.vec_users.length = 1 ∧
    Database.get_id_user_name (Database.init 0) 0 = some ANONYMOUS_USER_NAME ∧
    Database.get_id_user_name (Database.init 0) 2 = some ANONYMOUS_USER_NAME := by
  refine ⟨rfl, rfl, rfl, rfl⟩

/-! ## C3: add_change append condition and debounce -/

/-- C3: `add_change(c)` appends `c` (ending the log with `c`, after a purge
of already-notified prefix entries) and updates `date_last_change` exactly
when it is not the case that `c` repeats the most recent logged change
(same user and tag) within one second of wall time, and some registered
user has `use_notification = true`; when a skip condition holds the ledger
is unchanged.  Consequently two identical writes within one second append
exactly once, while after more than one second both append. -/
theorem add_change_debounce (s : IdUsers) (c : NotificationChange) (now t2 : Rat)
    (hinv : s.inv) (ht : now ≤ t2) :
    (s.is_same_as_last_change c now = true ↔
      ∃ last, s.vec_changes.getLast? = some last ∧ last.id_user = c.id_user ∧
        last.id_tag = c.id_tag ∧ s.date_last_change ≤ now ∧
        now - s.date_last_change < DURATION_CHANGE_FILTER_SECS) ∧
    (s.is_some_users_use_notification = true ↔
      ∃ u ∈ s.vec_users, u.use_notification = true) ∧
    ((s.is_same_as_last_change c now = true ∨
        s.is_some_users_use_notification = false) →
      s.add_change c now = s) ∧
    (s.is_same_as_last_change c now = false →
      s.is_some_users_use_notification = true →
      (s.add_change c now ≠ s ∧
        (s.add_change c now).vec_changes.getLast? = some c ∧
        (s.add_change c now).date_last_change = now ∧
        (∃ k, k ≤ s.vec_changes.length ∧
          (s.add_change c now).vec_changes = (s.vec_changes ++ [c]).drop k)) ∧
      (t2 - now < DURATION_CHANGE_FILTER_SECS →
        (s.add_change c now).add_change c t2 = s.add_change c now) ∧
      (DURATION_CHANGE_FILTER_SECS < t2 - now →
        ((s.add_change c now).add_change c t2).vec_changes.getLast? = some c ∧
        ((s.add_change c now).add_change c t2).date_last_change = t2 ∧
        ∃ k, ((s.add_change c now).add_change c t2).vec_changes =
          ((s.add_change c now).vec_changes ++ [c]).drop k)) := by
  refine ⟨is_same_iff s c now, some_notif_iff s, ?_, ?_⟩
  · intro h
    rcases h with h | h
    · unfold IdUsers.add_change
      rw [if_neg (by simp [h])]
    · unfold IdUsers.add_change
      rw [if_neg (by simp [h])]
  · intro hsame hnotif
    obtain ⟨hlast, hdate, ⟨k, hk, hck⟩, hnonempty⟩ :=
      add_change_append s c now hinv hsame hnotif
    refine ⟨⟨?_, hlast, hdate, ⟨k, hk, hck⟩⟩, ?_, ?_⟩
    · intro heq
      rw [heq] at hlast hdate
      have hsame2 : s.is_same_as_last_change c now = true := by
        rw [is_same_iff]
        refine ⟨c, hlast, rfl, rfl, by rw [hdate], ?_⟩
        rw [hdate]
        norm_num [DURATION_CHANGE_FILTER_SECS]
      simp [hsame] at hsame2
    · intro hlt
      have hsame2 : (s.add_change c now).is_same_as_last_change c t2 = true := by
        rw [is_same_iff]
        exact ⟨c, hlast, rfl, rfl, by rw [hdate]; exact ht, by rw [hdate]; exact hlt⟩
      generalize hS : s.add_change c now = S at hsame2 ⊢
      unfold IdUsers.add_change
      rw [if_neg (by simp [hsame2])]
    · intro hgt
      have hsame2 : (s.add_change c now).is_same_as_last_change c t2 = false := by
        by_contra hne
        have htrue : (s.add_change c now).is_same_as_last_change c t2 = true := by
          cases hval : (s.add_change c now).is_same_as_last_change c t2
          · exact absurd hval hne
          · rfl
        obtain ⟨last, hl, h1, h2, h3, htime⟩ := (is_same_iff _ c t2).mp htrue
        rw [hdate] at htime
        exact absurd htime (by linarith)
      have hnotif2 : (s.add_change c now).is_some_users_use_notification = true := by
        rw [someNotif_add_change]
        exact hnotif
      have hinv2 : (s.add_change c now).inv := inv_add_change s hinv c now
      obtain ⟨hl2, hd2, ⟨k2, hk2, hck2⟩, _⟩ :=
        add_change_append (s.add_change c now) c t2 hinv2 hsame2 hnotif2
      exact ⟨hl2, hd2, ⟨k2, hck2⟩⟩

/-- Witness for `add_change_debounce`: on a one-subscriber ledger, a first
change at instant 0 appends, a repeat at instant 1/2 is debounced. -/
theorem add_change_debounce_witness :
    ((IdUsers.mk [⟨"Anonymous user", false, 0⟩, ⟨"u", true, 0⟩] [] 0).add_change
        ⟨1, ⟨0, 1, 0, 0, 0⟩⟩ 0).add_change ⟨1, ⟨0, 1, 0, 0, 0⟩⟩ (1 / 2) =
      (IdUsers.mk [⟨"Anonymous user", false, 0⟩, ⟨"u", true, 0⟩] [] 0).add_change
        ⟨1, ⟨0, 1, 0, 0, 0⟩⟩ 0 :=
  (((add_change_debounce (IdUsers.mk [⟨"Anonymous user", false, 0⟩, ⟨"u", true, 0⟩] [] 0)
      ⟨1, ⟨0, 1, 0, 0, 0⟩⟩ 0 (1 / 2) (by simp [IdUsers.inv]) (by norm_num)).2.2.2
    (by decide) (by decide)).2.1) (by norm_num [DURATION_CHANGE_FILTER_SECS])

/-! ## C2: get_change -/

/-- C2 (amended): for a registered caller with `use_notification = true`,
`get_change` returns the first logged change at or after the caller cursor
whose author passes both filters (not the caller unless
`include_my_changes`, not the anonymous user unless
`include_anonymous_changes`), moving the cursor just past it so that
earlier filtered-out entries are permanently skipped; when no remaining
entry passes it returns `None` and moves the cursor to the end of the log;
an unregistered caller always gets `None` unchanged.  (The unamended claim
omits that a registered caller with `use_notification = false` also always
gets `None`, with no cursor movement.) -/
theorem get_change_spec (s : IdUsers) (id_user : Nat) (incMy incAnon : Bool)
    (hinv : s.inv) :
    (s.vec_users.length ≤ id_user → s.get_change id_user incMy incAnon = (none, s)) ∧
    (id_user < s.vec_users.length →
      ((s.vec_users.getD id_user default).use_notification = false →
        s.get_change id_user incMy incAnon = (none, s)) ∧
      ((s.vec_users.getD id_user default).use_notification = true →
        (∀ c s2, s.get_change id_user incMy incAnon = (some c, s2) →
          ∃ j, (s.vec_users.getD id_user default).next_notification_index ≤ j ∧
            j < s.vec_changes.length ∧ s.vec_changes.getD j default = c ∧
            change_filter id_user incMy incAnon c = true ∧
            (∀ k, (s.vec_users.getD id_user default).next_notification_index ≤ k →
              k < j →
              change_filter id_user incMy incAnon (s.vec_changes.getD k default) = false) ∧
            s2 = s.set_next id_user (j + 1)) ∧
        (∀ s2, s.get_change id_user incMy incAnon = (none, s2) →
          (∀ k, (s.vec_users.getD id_user default).next_notification_index ≤ k →
            k < s.vec_changes.length →
            change_filter id_user incMy incAnon (s.vec_changes.getD k default) = false) ∧
          s2 = s.set_next id_user s.vec_changes.length))) := by
  have hspec := find_offset_spec (change_filter id_user incMy incAnon) s.vec_changes
    (s.vec_changes.length - (s.vec_users.getD id_user default).next_notification_index)
    (s.vec_users.getD id_user default).next_notification_index rfl
  refine ⟨?_, ?_⟩
  · intro h
    unfold IdUsers.get_change
    rw [if_pos h]
  · intro hlt
    have hmem : s.vec_users.getD id_user default ∈ s.vec_users := by
      rw [List.getD_eq_getElem _ _ hlt]
      exact List.getElem_mem hlt
    have hoff_le : (s.vec_users.getD id_user default).next_notification_index ≤
        s.vec_changes.length := hinv _ hmem
    constructor
    · intro hfalse
      unfold IdUsers.get_change
      rw [if_neg (not_le.mpr hlt), if_pos (by simpa using hfalse)]
    · intro htrue
      constructor
      · intro c s2 hres
        revert hres
        unfold IdUsers.get_change
        rw [if_neg (not_le.mpr hlt), if_neg (by simpa using htrue)]
        dsimp only
        cases hfind : find_offset (change_filter id_user incMy incAnon) s.vec_changes
            (s.vec_users.getD id_user default).next_notification_index with
        | some j =>
            intro hres
            simp only [Prod.mk.injEq, Option.some.injEq] at hres
            obtain ⟨hc, hs2⟩ := hres
            obtain ⟨hj1, hj2, hj3, hj4⟩ := hspec.1 j hfind
            exact ⟨j, hj1, hj2, hc, hc ▸ hj3, hj4, hs2.symm⟩
        | none =>
            intro hres
            dsimp only at hres
            split at hres <;> simp at hres
      · intro s2 hres
        revert hres
        unfold IdUsers.get_change
        rw [if_neg (not_le.mpr hlt), if_neg (by simpa using htrue)]
        dsimp only
        cases hfind : find_offset (change_filter id_user incMy incAnon) s.vec_changes
            (s.vec_users.getD id_user default).next_notification_index with
        | some j =>
            intro hres
            simp at hres
        | none =>
            intro hres
            dsimp only at hres
            refine ⟨hspec.2 hfind, ?_⟩
            split at hres
            · simp only [Prod.mk.injEq] at hres
              exact hres.2.symm
            · rename_i hge
              simp only [Prod.mk.injEq] at hres
              have hoff_eq : (s.vec_users.getD id_user default).next_notification_index =
                  s.vec_changes.length := by omega
              have hset : s.set_next id_user s.vec_changes.length = s := by
                unfold IdUsers.set_next
                rw [← hoff_eq]
                show { s with vec_users :=
                  s.vec_users.set id_user (s.vec_users.getD id_user default) } = s
                rw [set_getD_self s.vec_users id_user hlt]
              rw [hset]
              exact hres.2.symm

/-- Witness for `get_change_spec`: a subscribed caller receives the pending
change of another author and its cursor advances past it. -/
theorem get_change_spec_witness :
    ∃ j, ((IdUsers.mk [⟨"Anonymous user", false, 0⟩, ⟨"u", true, 0⟩]
        [⟨5, ⟨1, 2, 0, 0, 0⟩⟩] 0).vec_users.getD 1 default).next_notification_index ≤ j ∧
      j < (IdUsers.mk [⟨"Anonymous user", false, 0⟩, ⟨"u", true, 0⟩]
        [⟨5, ⟨1, 2, 0, 0, 0⟩⟩] 0).vec_changes.length ∧
      (IdUsers.mk [⟨"Anonymous user", false, 0⟩, ⟨"u", true, 0⟩]
        [⟨5, ⟨1, 2, 0, 0, 0⟩⟩] 0).vec_changes.getD j default = ⟨5, ⟨1, 2, 0, 0, 0⟩⟩ ∧
      change_filter 1 true true ⟨5, ⟨1, 2, 0, 0, 0⟩⟩ = true ∧
      (∀ k, ((IdUsers.mk [⟨"Anonymous user", false, 0⟩, ⟨"u", true, 0⟩]
          [⟨5, ⟨1, 2, 0, 0, 0⟩⟩] 0).vec_users.getD 1 default).next_notification_index ≤ k →
        k < j →
        change_filter 1 true true ((IdUsers.mk [⟨"Anonymous user", false, 0⟩, ⟨"u", true, 0⟩]
          [⟨5, ⟨1, 2, 0, 0, 0⟩⟩] 0).vec_changes.getD k default) = false) ∧
      (IdUsers.mk [⟨"Anonymous user", false, 0⟩, ⟨"u", true, 0⟩]
          [⟨5, ⟨1, 2, 0, 0, 0⟩⟩] 0).set_next 1 1 =
        (IdUsers.mk [⟨"Anonymous user", false, 0⟩, ⟨"u", true, 0⟩]
          [⟨5, ⟨1, 2, 0, 0, 0⟩⟩] 0).set_next 1 (j + 1) :=
  by
  obtain ⟨j, h1, h2, h3, h4, h5, h6⟩ :=
    (((get_change_spec (IdUsers.mk [⟨"Anonymous user", false, 0⟩, ⟨"u", true, 0⟩]
        [⟨5, ⟨1, 2, 0, 0, 0⟩⟩] 0) 1 true true (by simp [IdUsers.inv])).2
      (by decide)).2 (by decide)).1 ⟨5, ⟨1, 2, 0, 0, 0⟩⟩
      ((IdUsers.mk [⟨"Anonymous user", false, 0⟩, ⟨"u", true, 0⟩]
        [⟨5, ⟨1, 2, 0, 0, 0⟩⟩] 0).set_next 1 1) (by decide)
  exact ⟨j, h1, h2, h3, h4, h5, by rw [← h6]⟩

/-- C2 counterexample: after registering `user1` without notifications and
`user2` with notifications, an unregistered author (id 5) writes one change
(which is appended, `user2` being subscribed); registered caller `user1`
then calls `get_change(1, true, true)`: the first logged change passes both
filters, yet the call returns `None` and leaves the ledger unchanged,
because `user1` has `use_notification = false` — contradicting the claim,
which promises `Some` of that change for every registered caller. -/
theorem get_change_counterexample :
    ((((IdUsers.init 0).get_id_user "user1" false).2.get_id_user "user2" true).2.add_change
        ⟨5, ⟨1, 2, 0, 0, 0⟩⟩ 1).get_change 1 true true =
      (none,
        (((IdUsers.init 0).get_id_user "user1" false).2.get_id_user "user2" true).2.add_change
          ⟨5, ⟨1, 2, 0, 0, 0⟩⟩ 1) ∧
    ((((IdUsers.init 0).get_id_user "user1" false).2.get_id_user "user2" true).2.add_change
        ⟨5, ⟨1, 2, 0, 0, 0⟩⟩ 1).vec_changes.getD 0 default = ⟨5, ⟨1, 2, 0, 0, 0⟩⟩ ∧
    change_filter 1 true true ⟨5, ⟨1, 2, 0, 0, 0⟩⟩ = true ∧
    (1 : Nat) <
      ((((IdUsers.init 0).get_id_user "user1" false).2.get_id_user "user2" true).2.add_change
        ⟨5, ⟨1, 2, 0, 0, 0⟩⟩ 1).vec_users.length ∧
    (((((IdUsers.init 0).get_id_user "user1" false).2.get_id_user "user2" true).2.add_change
        ⟨5, ⟨1, 2, 0, 0, 0⟩⟩ 1).vec_users.getD 1 default).next_notification_index = 0 := by
  refine ⟨by decide, by decide, by decide, by decide, by decide⟩

/-! ## Database area-scan helper lemmas -/

theorem alookup_mem {α β : Type} [DecidableEq α] :
    ∀ (l : List (α × β)) (a : α) (b : β), alookup l a = some b → (a, b) ∈ l := by
  intro l
  induction l with
  | nil => intro a b h; simp [alookup] at h
  | cons p rest ih =>
      intro a b h
      obtain ⟨k, v⟩ := p
      simp only [alookup] at h
      split_ifs at h with hk
      · injection h with h
        subst hk h
        exact List.mem_cons_self _ _
      · exact List.mem_cons_of_mem _ (ih a b h)

/-- When every entry of the address map points to a tag registered at that
very address, `get_tag_from_word_address` returns tags whose
`word_address` field is the queried address. -/
theorem get_tag_area_consistent (db : Database)
    (hcons : db.hash_word_address.all (fun p =>
      match alookup db.hash_tag p.2 with
      | some t => t.word_address == p.1
      | none => true) = true) :
    ∀ a t, db.get_tag_from_word_address a = some t → t.word_address = a := by
  intro a t h
  unfold Database.get_tag_from_word_address at h
  cases h1 : alookup db.hash_word_address a with
  | none => rw [h1] at h; cases h
  | some id_tag =>
      rw [h1] at h
      dsimp only at h
      have hm := alookup_mem _ _ _ h1
      rw [List.all_eq_true] at hcons
      have h2 := hcons (a, id_tag) hm
      dsimp only at h2
      rw [h] at h2
      simpa using h2

/-- When every registered tag occupies at least one word, so do the tags
returned by `get_tag_from_word_address`. -/
theorem get_tag_area_width (db : Database)
    (hw : db.hash_tag.all (fun p => decide (1 ≤ p.2.t_format.nb_words)) = true) :
    ∀ a t, db.get_tag_from_word_address a = some t → 1 ≤ t.t_format.nb_words := by
  intro a t h
  unfold Database.get_tag_from_word_address at h
  cases h1 : alookup db.hash_word_address a with
  | none => rw [h1] at h; cases h
  | some id_tag =>
      rw [h1] at h
      dsimp only at h
      have hm := alookup_mem _ _ _ h
      rw [List.all_eq_true] at hw
      have h2 := hw (id_tag, t) hm
      simpa using h2

/-- For a nonempty area and a tag of at least one word, the truncating
`usize` subtractions of `contains_word_address_area` compute plain interval
intersection. -/
theorem contains_eq_intersects (t : Tag) (wa nb : Nat) (hnb : 1 ≤ nb)
    (hw : 1 ≤ t.t_format.nb_words) :
    t.contains_word_address_area wa nb = tag_intersects_area t wa nb := by
  simp only [Tag.contains_word_address_area, tag_intersects_area]
  rw [decide_eq_decide]
  constructor <;> (intro h; omega)

theorem back_find_eq (db : Database) (wa nb : Nat) : ∀ p,
    db.back_find wa nb p =
      match nearest_tag_back db p with
      | some t => if t.contains_word_address_area wa nb then some t else none
      | none => none := by
  intro p
  induction p with
  | zero => rfl
  | succ p ih =>
      simp only [Database.back_find, nearest_tag_back]
      cases h : db.get_tag_from_word_address p with
      | none => simpa using ih
      | some t => rfl

theorem nearest_tag_back_mem (db : Database) : ∀ p t, nearest_tag_back db p = some t →
    ∃ a, db.get_tag_from_word_address a = some t := by
  intro p
  induction p with
  | zero => intro t h; cases h
  | succ p ih =>
      intro t h
      simp only [nearest_tag_back] at h
      cases h1 : db.get_tag_from_word_address p with
      | none => rw [h1] at h; exact ih t (by simpa using h)
      | some t0 =>
          rw [h1] at h
          injection h with h
          exact ⟨p, by rw [h1, h]⟩

/-- The byte store plays no role in the tag lookup. -/
theorem get_tag_wa_vec (db : Database) (v : List Nat) (a : Nat) :
    ({ db with vec_u8 := v } : Database).get_tag_from_word_address a =
      db.get_tag_from_word_address a := rfl

theorem nearest_tag_back_vec (db : Database) (v : List Nat) : ∀ p,
    nearest_tag_back { db with vec_u8 := v } p = nearest_tag_back db p := by
  intro p
  induction p with
  | zero => rfl
  | succ p ih =>
      simp only [nearest_tag_back, get_tag_wa_vec]
      cases h : db.get_tag_from_word_address p with
      | none => simpa using ih
      | some t => rfl

/-! ## Byte-copy loop lemmas -/

theorem write_bytes_length (bs : List Nat) : ∀ (v : List Nat) (addr : Nat),
    (write_bytes v addr bs).length = v.length := by
  induction bs with
  | nil => intro v addr; rfl
  | cons b bs ih =>
      intro v addr
      simp only [write_bytes]
      rw [ih, List.length_set]

theorem write_bytes_getD_out (bs : List Nat) : ∀ (v : List Nat) (addr j : Nat),
    j < addr ∨ addr + bs.length ≤ j →
    (write_bytes v addr bs).getD j 0 = v.getD j 0 := by
  induction bs with
  | nil => intro v addr j _; rfl
  | cons b bs ih =>
      intro v addr j hj
      simp only [List.length_cons] at hj
      simp only [write_bytes]
      rw [ih (v.set addr b) (addr + 1) j (by omega)]
      have hne : addr ≠ j := by omega
      rw [List.getD_eq_getElem?_getD, List.getD_eq_getElem?_getD,
        List.getElem?_set_ne hne]

theorem write_bytes_getD_in (bs : List Nat) : ∀ (v : List Nat) (addr i : Nat),
    i < bs.length → addr + bs.length ≤ v.length →
    (write_bytes v addr bs).getD (addr + i) 0 = bs.getD i 0 := by
  induction bs with
  | nil => intro v addr i hi _; simp at hi
  | cons b bs ih =>
      intro v addr i hi hlen
      simp only [List.length_cons] at hlen
      simp only [write_bytes]
      cases i with
      | zero =>
          rw [write_bytes_getD_out bs (v.set addr b) (addr + 1) (addr + 0) (Or.inl (by omega))]
          have haddr : addr < v.length := by omega
          rw [List.getD_eq_getElem?_getD, Nat.add_zero,
            List.getElem?_set_eq (by simpa using haddr)]
          rfl
      | succ i =>
          simp only [List.length_cons] at hi
          have harr : addr + (i + 1) = (addr + 1) + i := by omega
          rw [harr, ih (v.set addr b) (addr + 1) i (by omega)
            (by rw [List.length_set]; omega)]
          rfl

/-- `user_write_tag` only touches the ledger: folding it over any tag list
leaves the byte store and both tag maps unchanged. -/
theorem foldl_user_write_fields (tags : List Tag) (id_user : Nat) (now : Rat) :
    ∀ db : Database,
      (tags.foldl (fun d tag => d.user_write_tag id_user tag now) db).vec_u8 = db.vec_u8 ∧
      (tags.foldl (fun d tag => d.user_write_tag id_user tag now) db).hash_word_address =
        db.hash_word_address ∧
      (tags.foldl (fun d tag => d.user_write_tag id_user tag now) db).hash_tag =
        db.hash_tag := by
  induction tags with
  | nil => intro db; exact ⟨rfl, rfl, rfl⟩
  | cons t ts ih =>
      intro db
      simp only [List.foldl_cons]
      exact ih (db.user_write_tag id_user t now)

/-- The forward loop collects exactly the intersecting tags registered at
the addresses `wa + 1, …, wa + nb`, provided the tag maps are consistent
and registered tags occupy at least one word (intersection is then monotone
in the address, so the early break of the loop agrees with a filter). -/
theorem forward_scan_eq (db : Database) (wa nb : Nat)
    (hcons : ∀ a t, db.get_tag_from_word_address a = some t → t.word_address = a)
    (hw : ∀ a t, db.get_tag_from_word_address a = some t → 1 ≤ t.t_format.nb_words) :
    ∀ k fwd, wa ≤ fwd → wa + nb + 1 - fwd ≤ k →
      db.forward_scan wa nb fwd =
        (List.range' (fwd + 1) (wa + nb - fwd)).filterMap (fun a =>
          match db.get_tag_from_word_address a with
          | some t => if tag_intersects_area t wa nb then some t else none
          | none => none) := by
  intro k
  induction k with
  | zero =>
      intro fwd hwa hk
      rw [Database.forward_scan]
      rw [if_pos (by omega)]
      have h0 : wa + nb - fwd = 0 := by omega
      rw [h0]
      rfl
  | succ k ih =>
      intro fwd hwa hk
      rw [Database.forward_scan]
      by_cases hlt : wa + nb < fwd
      · rw [if_pos hlt]
        have h0 : wa + nb - fwd = 0 := by omega
        rw [h0]
        rfl
      · rw [if_neg hlt]
        cases htag : db.get_tag_from_word_address (fwd + 1) with
        | none =>
            simp only [htag]
            by_cases hend : wa + nb ≤ fwd
            · have h0 : wa + nb - fwd = 0 := by omega
              rw [h0, ih (fwd + 1) (by omega) (by omega)]
              have h1 : wa + nb - (fwd + 1) = 0 := by omega
              rw [h1]
              rfl
            · have h2 : wa + nb - fwd = (wa + nb - (fwd + 1)) + 1 := by omega
              rw [h2, List.range'_succ, List.filterMap_cons]
              simp only [htag]
              exact ih (fwd + 1) (by omega) (by omega)
        | some t =>
            have hta : t.word_address = fwd + 1 := hcons _ _ htag
            have htw : 1 ≤ t.t_format.nb_words := hw _ _ htag
            simp only [htag]
            by_cases hin : fwd + 1 < wa + nb
            · have hcont : t.contains_word_address_area wa nb = true := by
                simp only [Tag.contains_word_address_area, decide_eq_true_eq]
                omega
              have hint : tag_intersects_area t wa nb = true := by
                simp only [tag_intersects_area, decide_eq_true_eq]
                omega
              rw [hcont]
              simp only [if_true]
              have h2 : wa + nb - fwd = (wa + nb - (fwd + 1)) + 1 := by omega
              rw [h2, List.range'_succ, List.filterMap_cons]
              simp only [htag, hint, if_true]
              rw [ih (fwd + 1) (by omega) (by omega)]
            · have hcont : t.contains_word_address_area wa nb = false := by
                simp only [Tag.contains_word_address_area, decide_eq_false_iff_not]
                omega
              rw [hcont]
              simp only [Bool.false_eq_true, if_false]
              by_cases hend : wa + nb ≤ fwd
              · have h0 : wa + nb - fwd = 0 := by omega
                rw [h0]
                rfl
              · have h1 : wa + nb - fwd = 1 := by omega
                rw [h1, List.range'_succ, List.filterMap_cons]
                simp only [htag]
                have hint : tag_intersects_area t wa nb = false := by
                  simp only [tag_intersects_area, decide_eq_false_iff_not]
                  omega
                rw [hint]
                simp

/-- Under a consistent address map, a nonempty area and one-word-minimum
tags, `get_tags_from_word_address_area` computes exactly the claim-side
description `spec_area_tags`. -/
theorem area_tags_eq (db : Database) (wa nb : Nat) (hnb : 1 ≤ nb)
    (hcons : ∀ a t, db.get_tag_from_word_address a = some t → t.word_address = a)
    (hw : ∀ a t, db.get_tag_from_word_address a = some t → 1 ≤ t.t_format.nb_words) :
    db.get_tags_from_word_address_area wa nb = spec_area_tags db wa nb := by
  have hforward : db.forward_scan wa nb wa = spec_follow_tags db wa nb := by
    rw [forward_scan_eq db wa nb hcons hw (wa + nb + 1 - wa) wa le_rfl le_rfl]
    have h1 : wa + nb - wa = nb := by omega
    rw [h1]
    rfl
  unfold Database.get_tags_from_word_address_area spec_area_tags nearest_tag_at_or_before
  cases h0 : db.get_tag_from_word_address wa with
  | some t =>
      simp only [h0]
      have hta := hcons _ _ h0
      have htw := hw _ _ h0
      have hint : tag_intersects_area t wa nb = true := by
        simp only [tag_intersects_area, decide_eq_true_eq]
        omega
      rw [hint]
      simp only [if_true]
      rw [hforward]
  | none =>
      simp only [h0]
      rw [back_find_eq]
      cases h1 : nearest_tag_back db wa with
      | none => rfl
      | some t =>
          simp only [h1]
          obtain ⟨a, ha⟩ := nearest_tag_back_mem db wa t h1
          have htw := hw _ _ ha
          rw [contains_eq_intersects t wa nb hnb htw]
          cases hint : tag_intersects_area t wa nb
          · simp only [Bool.false_eq_true, if_false]
          · simp only [if_true]
            rw [hforward]

/-- The claim-side area description ignores the byte store. -/
theorem spec_area_tags_vec (db : Database) (v : List Nat) (wa nb : Nat) :
    spec_area_tags { db with vec_u8 := v } wa nb = spec_area_tags db wa nb := by
  have hfollow : spec_follow_tags { db with vec_u8 := v } wa nb =
      spec_follow_tags db wa nb := rfl
  unfold spec_area_tags nearest_tag_at_or_before
  rw [nearest_tag_back_vec, get_tag_wa_vec]
  cases h0 : db.get_tag_from_word_address wa with
  | some t =>
      simp only [h0]
      rw [hfollow]
  | none =>
      simp only [h0]
      cases h1 : nearest_tag_back db wa with
      | none => rfl
      | some t =>
          simp only [h1]
          rw [hfollow]

/-- C4: `set_vec_u8_to_word_address id_user wa bytes` stores `bytes[i]` at
byte offset `2 * wa + i`, leaves every other byte of the store and both tag
maps unchanged, and calls `user_write_tag id_user tag` exactly for the tags
returned by `get_tags_from_word_address_area wa ((|bytes| + 1) / 2)` (the
trace component of the model records those calls in order), which are the
tag found at `wa` or scanned backward before `wa` whose word range meets
the area, followed by every following tag whose word range intersects
`[wa, wa + (|bytes| + 1) / 2)`, with an empty result when no such
predecessor tag exists — provided `bytes` is nonempty and fits the store,
the address map points to tags registered at that address, and every
registered tag occupies at least one word. -/
theorem set_vec_u8_spec (db : Database) (id_user wa : Nat) (bytes : List Nat) (now : Rat)
    (hbytes : bytes ≠ [])
    (hfit : 2 * wa + bytes.length ≤ db.vec_u8.length)
    (hcons : db.hash_word_address.all (fun p =>
      match alookup db.hash_tag p.2 with
      | some t => t.word_address == p.1
      | none => true) = true)
    (hw : db.hash_tag.all (fun p => decide (1 ≤ p.2.t_format.nb_words)) = true) :
    ((db.set_vec_u8_to_word_address id_user wa bytes now).1.vec_u8.length
        = db.vec_u8.length ∧
      (∀ i, i < bytes.length →
        (db.set_vec_u8_to_word_address id_user wa bytes now).1.vec_u8.getD (2 * wa + i) 0
          = bytes.getD i 0) ∧
      (∀ j, j < 2 * wa ∨ 2 * wa + bytes.length ≤ j →
        (db.set_vec_u8_to_word_address id_user wa bytes now).1.vec_u8.getD j 0
          = db.vec_u8.getD j 0)) ∧
    ((db.set_vec_u8_to_word_address id_user wa bytes now).1.hash_word_address
        = db.hash_word_address ∧
      (db.set_vec_u8_to_word_address id_user wa bytes now).1.hash_tag = db.hash_tag) ∧
    ((db.set_vec_u8_to_word_address id_user wa bytes now).2
        = db.get_tags_from_word_address_area wa ((bytes.length + 1) / 2) ∧
      (db.set_vec_u8_to_word_address id_user wa bytes now).2
        = spec_area_tags db wa ((bytes.length + 1) / 2)) := by
  have hlen0 : bytes.length ≠ 0 := fun h => hbytes (List.length_eq_zero.mp h)
  have hnb : 1 ≤ (bytes.length + 1) / 2 := by omega
  have h2 : (db.set_vec_u8_to_word_address id_user wa bytes now).2 =
      ({ db with vec_u8 := write_bytes db.vec_u8 (2 * wa) bytes } :
        Database).get_tags_from_word_address_area wa ((bytes.length + 1) / 2) := rfl
  have h1 : (db.set_vec_u8_to_word_address id_user wa bytes now).1 =
      ((({ db with vec_u8 := write_bytes db.vec_u8 (2 * wa) bytes } :
        Database).get_tags_from_word_address_area wa ((bytes.length + 1) / 2)).foldl
          (fun d tag => d.user_write_tag id_user tag now)
          { db with vec_u8 := write_bytes db.vec_u8 (2 * wa) bytes }) := rfl
  have hv : (db.set_vec_u8_to_word_address id_user wa bytes now).1.vec_u8 =
      write_bytes db.vec_u8 (2 * wa) bytes := by
    rw [h1]
    exact (foldl_user_write_fields _ id_user now _).1
  have hcds := get_tag_area_consistent db hcons
  have hwds := get_tag_area_width db hw
  have hc1 : ∀ a t,
      ({ db with vec_u8 := write_bytes db.vec_u8 (2 * wa) bytes } :
        Database).get_tag_from_word_address a = some t → t.word_address = a :=
    fun a t h => hcds a t h
  have hw1 : ∀ a t,
      ({ db with vec_u8 := write_bytes db.vec_u8 (2 * wa) bytes } :
        Database).get_tag_from_word_address a = some t → 1 ≤ t.t_format.nb_words :=
    fun a t h => hwds a t h
  have espec : (db.set_vec_u8_to_word_address id_user wa bytes now).2 =
      spec_area_tags db wa ((bytes.length + 1) / 2) := by
    rw [h2, area_tags_eq _ wa _ hnb hc1 hw1, spec_area_tags_vec]
  refine ⟨⟨?_, ?_, ?_⟩, ⟨?_, ?_⟩, ⟨?_, espec⟩⟩
  · rw [hv, write_bytes_length]
  · intro i hi
    rw [hv]
    exact write_bytes_getD_in bytes db.vec_u8 (2 * wa) i hi hfit
  · intro j hj
    rw [hv]
    exact write_bytes_getD_out bytes db.vec_u8 (2 * wa) j hj
  · rw [h1]
    exact (foldl_user_write_fields _ id_user now _).2.1
  · rw [h1]
    exact (foldl_user_write_fields _ id_user now _).2.2
  · rw [espec, area_tags_eq db wa _ hnb hcds hwds]

/-- Witness for `set_vec_u8_spec`: a five-byte write at word address 2 over
a store holding a two-word tag at address 2 and a one-word tag at address 4
notifies exactly the tags of the claim-side area description. -/
theorem set_vec_u8_spec_witness :
    ([1, 2, 3, 4, 5] : List Nat) ≠ [] ∧
    2 * 2 + ([1, 2, 3, 4, 5] : List Nat).length ≤
      (⟨List.replicate 12 9, [(2, ⟨1, 1, 0, 0, 0⟩), (4, ⟨1, 2, 0, 0, 0⟩)],
        [(⟨1, 1, 0, 0, 0⟩, ⟨2, ⟨1, 1, 0, 0, 0⟩, false, .U32, "", "", false, ""⟩),
         (⟨1, 2, 0, 0, 0⟩, ⟨4, ⟨1, 2, 0, 0, 0⟩, false, .U16, "", "", false, ""⟩)],
        IdUsers.init 0⟩ : Database).vec_u8.length ∧
    (⟨List.replicate 12 9, [(2, ⟨1, 1, 0, 0, 0⟩), (4, ⟨1, 2, 0, 0, 0⟩)],
        [(⟨1, 1, 0, 0, 0⟩, ⟨2, ⟨1, 1, 0, 0, 0⟩, false, .U32, "", "", false, ""⟩),
         (⟨1, 2, 0, 0, 0⟩, ⟨4, ⟨1, 2, 0, 0, 0⟩, false, .U16, "", "", false, ""⟩)],
        IdUsers.init 0⟩ : Database).hash_word_address.all (fun p =>
      match alookup (⟨List.replicate 12 9, [(2, ⟨1, 1, 0, 0, 0⟩), (4, ⟨1, 2, 0, 0, 0⟩)],
        [(⟨1, 1, 0, 0, 0⟩, ⟨2, ⟨1, 1, 0, 0, 0⟩, false, .U32, "", "", false, ""⟩),
         (⟨1, 2, 0, 0, 0⟩, ⟨4, ⟨1, 2, 0, 0, 0⟩, false, .U16, "", "", false, ""⟩)],
        IdUsers.init 0⟩ : Database).hash_tag p.2 with
      | some t => t.word_address == p.1
      | none => true) = true ∧
    (⟨List.replicate 12 9, [(2, ⟨1, 1, 0, 0, 0⟩), (4, ⟨1, 2, 0, 0, 0⟩)],
        [(⟨1, 1, 0, 0, 0⟩, ⟨2, ⟨1, 1, 0, 0, 0⟩, false, .U32, "", "", false, ""⟩),
         (⟨1, 2, 0, 0, 0⟩, ⟨4, ⟨1, 2, 0, 0, 0⟩, false, .U16, "", "", false, ""⟩)],
        IdUsers.init 0⟩ : Database).hash_tag.all
      (fun p => decide (1 ≤ p.2.t_format.nb_words)) = true ∧
    ((⟨List.replicate 12 9, [(2, ⟨1, 1, 0, 0, 0⟩), (4, ⟨1, 2, 0, 0, 0⟩)],
        [(⟨1, 1, 0, 0, 0⟩, ⟨2, ⟨1, 1, 0, 0, 0⟩, false, .U32, "", "", false, ""⟩),
         (⟨1, 2, 0, 0, 0⟩, ⟨4, ⟨1, 2, 0, 0, 0⟩, false, .U16, "", "", false, ""⟩)],
        IdUsers.init 0⟩ : Database).set_vec_u8_to_word_address 1 2 [1, 2, 3, 4, 5] 0).2 =
      spec_area_tags
        (⟨List.replicate 12 9, [(2, ⟨1, 1, 0, 0, 0⟩), (4, ⟨1, 2, 0, 0, 0⟩)],
          [(⟨1, 1, 0, 0, 0⟩, ⟨2, ⟨1, 1, 0, 0, 0⟩, false, .U32, "", "", false, ""⟩),
           (⟨1, 2, 0, 0, 0⟩, ⟨4, ⟨1, 2, 0, 0, 0⟩, false, .U16, "", "", false, ""⟩)],
          IdUsers.init 0⟩ : Database) 2 ((([1, 2, 3, 4, 5] : List Nat).length + 1) / 2) :=
  ⟨by decide, by decide, by decide, by decide,
    (set_vec_u8_spec
      (⟨List.replicate 12 9, [(2, ⟨1, 1, 0, 0, 0⟩), (4, ⟨1, 2, 0, 0, 0⟩)],
        [(⟨1, 1, 0, 0, 0⟩, ⟨2, ⟨1, 1, 0, 0, 0⟩, false, .U32, "", "", false, ""⟩),
         (⟨1, 2, 0, 0, 0⟩, ⟨4, ⟨1, 2, 0, 0, 0⟩, false, .U16, "", "", false, ""⟩)],
        IdUsers.init 0⟩ : Database) 1 2 [1, 2, 3, 4, 5] 0
      (by decide) (by decide) (by decide) (by decide)).2.2.2⟩

/-! ## Middleware helper lemmas -/

theorem toU8_lt (v : TValue) : v.toU8 < 2 ^ 8 := by
  unfold TValue.toU8
  split_ifs with h
  · omega
  · omega

theorem get_index_min_lt (r : Records) (hr : r.wf) (z : Nat) :
    r.get_index_min z < 2 ^ 64 := by
  unfold Records.get_index_min
  cases h : alookup r.index_min z with
  | none => simp
  | some v =>
      have hv := hr.1 (z, v) (alookup_mem _ _ _ h)
      simpa using hv

theorem get_index_max_lt (r : Records) (hr : r.wf) (z : Nat) :
    r.get_index_max z < 2 ^ 64 := by
  unfold Records.get_index_max
  cases h : alookup r.index_max z with
  | none => simp
  | some v =>
      have hv := hr.2 (z, v) (alookup_mem _ _ _ h)
      simpa using hv

/-- A successful `try_extend_data_item(..).unwrap()` on an `Ok` frame
appends the encoded item and recomputes length and XOR. -/
theorem extend_unwrap_ok (tag len : Nat) (values : List Nat) (xor : Nat) (di : DataItem)
    (h : di.encode.length + len ≤ RAW_FRAME_MAX_LEN) :
    (RawFrame.Ok tag len values xor).extend_data_item_unwrap di =
      .Ok tag (di.encode.length + len) (values ++ di.encode)
        (calcul_xor tag (di.encode.length + len) (values ++ di.encode)) := by
  simp only [RawFrame.extend_data_item_unwrap, RawFrame.try_extend_data_item]
  rw [if_neg (by omega)]

/-- Shape of a message frame built by three consecutive unwrapped extends. -/
theorem build3_unwrap (tag : Nat) (d1 d2 d3 : DataItem)
    (h : d1.encode.length + d2.encode.length + d3.encode.length ≤ RAW_FRAME_MAX_LEN) :
    (((RawFrame.new_message tag).extend_data_item_unwrap d1).extend_data_item_unwrap
        d2).extend_data_item_unwrap d3 =
      .Ok tag (d3.encode.length + (d2.encode.length + (d1.encode.length + 0)))
        ((([] ++ d1.encode) ++ d2.encode) ++ d3.encode)
        (calcul_xor tag (d3.encode.length + (d2.encode.length + (d1.encode.length + 0)))
          ((([] ++ d1.encode) ++ d2.encode) ++ d3.encode)) := by
  have hnm : RawFrame.new_message tag = RawFrame.Ok tag 0 [] tag := rfl
  rw [hnm,
    extend_unwrap_ok tag 0 [] tag d1 (by omega),
    extend_unwrap_ok _ _ _ _ d2 (by omega),
    extend_unwrap_ok _ _ _ _ d3 (by omega)]

/-- C7: `MDataOutTableIndex::get_conversation` returns `None` for any
message tag other than `AF_DATA_OUT_TABLE_INDEX`; for an
`AF_DATA_OUT_TABLE_INDEX` message it replies NACK when no `D_DATA_ZONE`
data item is present, and otherwise replies an `IC_DATA_OUT_TABLE_INDEX`
message carrying exactly three data items in order — `D_DATA_ZONE` with
`U8(zone)`, then two items both tagged `D_DATA_FIRST_TABLE_INDEX` with
`U64(records.get_index_min zone)` and `U64(records.get_index_max zone)` —
and both index getters return 0 for a zone with no recorded index.
(`DataItem::new` is modelled from the spec; the recorded indices are
assumed to fit in a `u64`.) -/
theorem m_data_out_table_index_spec (records : Records) (df : DataFrame)
    (hrec : records.wf) :
    (df.get_tag ≠ AF_DATA_OUT_TABLE_INDEX →
      m_data_out_table_index_get_conversation records df = none) ∧
    (df.get_tag = AF_DATA_OUT_TABLE_INDEX →
      (df.get_data_items.find? (fun di => di.tag == D_DATA_ZONE) = none →
        m_data_out_table_index_get_conversation records df = some RawFrame.new_nack) ∧
      (∀ di, df.get_data_items.find? (fun di => di.tag == D_DATA_ZONE) = some di →
        ∃ raw, m_data_out_table_index_get_conversation records df = some raw ∧
          DataFrame.tryFrom raw = .ok (.Message IC_DATA_OUT_TABLE_INDEX
            [DataItem.new D_DATA_ZONE (.u8 di.t_value.toU8),
             DataItem.new D_DATA_FIRST_TABLE_INDEX
               (.u64 (records.get_index_min di.t_value.toU8)),
             DataItem.new D_DATA_FIRST_TABLE_INDEX
               (.u64 (records.get_index_max di.t_value.toU8))])) ) ∧
    (∀ zone, (alookup records.index_min zone = none → records.get_index_min zone = 0) ∧
      (alookup records.index_max zone = none → records.get_index_max zone = 0)) := by
  refine ⟨?_, ?_, ?_⟩
  · intro h
    unfold m_data_out_table_index_get_conversation
    rw [if_pos h]
  · intro htag
    constructor
    · intro hfind
      unfold m_data_out_table_index_get_conversation
      rw [if_neg (not_not_intro htag), hfind]
    · intro di hfind
      unfold m_data_out_table_index_get_conversation
      rw [if_neg (not_not_intro htag), hfind]
      refine ⟨_, rfl, ?_⟩
      dsimp only
      have he1 : (DataItem.new D_DATA_ZONE (TValue.u8 di.t_value.toU8)).encode.length = 3 := by
        rw [encode_new_item_length _ _ (fun n bytes h => TValue.noConfusion h)]
        rfl
      have he2 : (DataItem.new D_DATA_FIRST_TABLE_INDEX
          (TValue.u64 (records.get_index_min di.t_value.toU8))).encode.length = 10 := by
        rw [encode_new_item_length _ _ (fun n bytes h => TValue.noConfusion h)]
        rfl
      have he3 : (DataItem.new D_DATA_FIRST_TABLE_INDEX
          (TValue.u64 (records.get_index_max di.t_value.toU8))).encode.length = 10 := by
        rw [encode_new_item_length _ _ (fun n bytes h => TValue.noConfusion h)]
        rfl
      rw [build3_unwrap _ _ _ _ (by rw [he1, he2, he3]; decide)]
      have hok : ok_payload_items
          [(D_DATA_ZONE, TValue.u8 di.t_value.toU8),
           (D_DATA_FIRST_TABLE_INDEX, TValue.u64 (records.get_index_min di.t_value.toU8)),
           (D_DATA_FIRST_TABLE_INDEX, TValue.u64 (records.get_index_max di.t_value.toU8))]
          = true := by
        simp [ok_payload_items, TValue.wf, toU8_lt di.t_value,
          get_index_min_lt records hrec, get_index_max_lt records hrec]
        exact ⟨toU8_lt di.t_value, get_index_min_lt records hrec _,
          get_index_max_lt records hrec _⟩
      have hV : (([] ++ (DataItem.new D_DATA_ZONE (TValue.u8 di.t_value.toU8)).encode) ++
            (DataItem.new D_DATA_FIRST_TABLE_INDEX
              (TValue.u64 (records.get_index_min di.t_value.toU8))).encode) ++
            (DataItem.new D_DATA_FIRST_TABLE_INDEX
              (TValue.u64 (records.get_index_max di.t_value.toU8))).encode =
          encode_items
            [(D_DATA_ZONE, TValue.u8 di.t_value.toU8),
             (D_DATA_FIRST_TABLE_INDEX, TValue.u64 (records.get_index_min di.t_value.toU8)),
             (D_DATA_FIRST_TABLE_INDEX, TValue.u64 (records.get_index_max di.t_value.toU8))] := by
        simp [encode_items]
      simp only [DataFrame.tryFrom]
      rw [hV, decode_all_encode_items _ hok]
      rfl
  · intro zone
    constructor
    · intro h
      unfold Records.get_index_min
      rw [h]
      rfl
    · intro h
      unfold Records.get_index_max
      rw [h]
      rfl

/-- Witness for `m_data_out_table_index_spec`: with recorded indices
`min = 100`, `max = 200` for zone 2, an `AF_DATA_OUT_TABLE_INDEX` request
carrying `D_DATA_ZONE = U8(2)` is answered by the three-item
`IC_DATA_OUT_TABLE_INDEX` reply. -/
theorem m_data_out_table_index_spec_witness :
    Records.wf ⟨[(2, 100)], [(2, 200)]⟩ ∧
    ((DataFrame.Message AF_DATA_OUT_TABLE_INDEX
        [DataItem.new D_DATA_ZONE (.u8 2)]).get_tag = AF_DATA_OUT_TABLE_INDEX →
      ((DataFrame.Message AF_DATA_OUT_TABLE_INDEX
          [DataItem.new D_DATA_ZONE (.u8 2)]).get_data_items.find?
            (fun di => di.tag == D_DATA_ZONE) = none →
        m_data_out_table_index_get_conversation ⟨[(2, 100)], [(2, 200)]⟩
          (DataFrame.Message AF_DATA_OUT_TABLE_INDEX [DataItem.new D_DATA_ZONE (.u8 2)]) =
          some RawFrame.new_nack) ∧
      (∀ di, (DataFrame.Message AF_DATA_OUT_TABLE_INDEX
          [DataItem.new D_DATA_ZONE (.u8 2)]).get_data_items.find?
            (fun di => di.tag == D_DATA_ZONE) = some di →
        ∃ raw, m_data_out_table_index_get_conversation ⟨[(2, 100)], [(2, 200)]⟩
            (DataFrame.Message AF_DATA_OUT_TABLE_INDEX [DataItem.new D_DATA_ZONE (.u8 2)]) =
            some raw ∧
          DataFrame.tryFrom raw = .ok (.Message IC_DATA_OUT_TABLE_INDEX
            [DataItem.new D_DATA_ZONE (.u8 di.t_value.toU8),
             DataItem.new D_DATA_FIRST_TABLE_INDEX
               (.u64 (Records.get_index_min ⟨[(2, 100)], [(2, 200)]⟩ di.t_value.toU8)),
             DataItem.new D_DATA_FIRST_TABLE_INDEX
               (.u64 (Records.get_index_max ⟨[(2, 100)], [(2, 200)]⟩ di.t_value.toU8))]))) :=
  ⟨by constructor <;> intro p hp <;> simp only [List.mem_singleton] at hp <;>
      subst hp <;> decide,
    (m_data_out_table_index_spec ⟨[(2, 100)], [(2, 200)]⟩
      (DataFrame.Message AF_DATA_OUT_TABLE_INDEX [DataItem.new D_DATA_ZONE (.u8 2)])
      (by constructor <;> intro p hp <;> simp only [List.mem_singleton] at hp <;>
        subst hp <;> decide)).2.1⟩

end SimIcom
